import Mathlib

/-!
Verification development for the kudu client-side write session
(`KuduSession` in the repository source).  The Java class is embedded
shallowly: mutable session fields become a `SessionState` record threaded
through each method, Java exceptions become error results that also carry
the state at the moment of the throw (none of the throwing paths mutates
state before throwing, which the embedding makes explicit), and
`com.stumbleupon.async.Deferred` values are represented symbolically by the
inductive `Fut` (each constructor records which deferred object the source
returns: an operation's own deferred, a batch's own deferred, a deferred
with a chained callback, a `Deferred.group`, or `Deferred.fromResult(null)`).
External collaborators (`KuduClient` lookup/dispatch helpers) are not part
of the source tree; they are modelled from the spec as a record of
parameters, see `Client`.
-/

set_option autoImplicit false

namespace KuduSess

/-- Flush modes of the session, from the `FlushMode` enum in the source. -/
inductive FlushMode where
  | AUTO_FLUSH_SYNC
  | AUTO_FLUSH_BACKGROUND
  | MANUAL_FLUSH
deriving DecidableEq

/-- External consistency modes (opaque tags; only identity matters). -/
inductive ExternalConsistencyMode where
  | NO_CONSISTENCY
  | CLIENT_PROPAGATED
deriving DecidableEq

/-- A row operation.  `oid` models Java object identity (each created
operation is a distinct object); `tablet` is the resolved tablet id set by
`apply`, `attempt` the retry counter incremented on lookup. -/
structure Operation where
  oid : Nat
  table : String
  key : Nat
  attempt : Nat := 0
  tablet : Option Nat := none
  timeoutMillis : Nat := 0
  externalConsistencyMode : ExternalConsistencyMode := .NO_CONSISTENCY
deriving DecidableEq

/-- A batch of operations bound to one tablet.  `bid` models Java object
identity of the `Batch`; `ops` is the positionally significant list. -/
structure Batch where
  bid : Nat
  table : String
  ops : List Operation := []
  externalConsistencyMode : ExternalConsistencyMode := .NO_CONSISTENCY
  timeoutMillis : Nat := 0
deriving DecidableEq

/-- Symbolic representation of a `Deferred<Object>` value as returned by the
session's methods.
* `fromResult` is `Deferred.fromResult(null)` — an already-completed null
  deferred.
* `opDeferred oid` is `operation.getDeferred()` of the operation with
  identity `oid` (also what `client.sendRpcToTablet(operation)` yields:
  modelled from the spec, the dispatcher's future for an object is the
  object's own completion future).
* `batchDeferred bid` is `batch.getDeferred()` of the batch with identity
  `bid` (likewise what `client.sendRpcToTablet(batch)` yields).
* `chainedFlushRetry base t b` is `base.addBothDeferring(new
  FlushRetryCallback(t, b))` (the callback captures the `Batch` object).
* `chainedRetryRpc base op` is `base.addBothDeferring(getRetryRpcCB(op))`
  (the callback captures the `Operation` object).
* `locate table key` is `client.locateTablet(table, key)`.
* `waitCreate table` is the table-creation wait future used by
  `client.delayedIsCreateTableDone`.
* `group fs` is `Deferred.group(fs)`. -/
inductive Fut where
  | fromResult
  | opDeferred (oid : Nat)
  | batchDeferred (bid : Nat)
  | chainedFlushRetry (base : Fut) (tablet : Nat) (expectedBatch : Batch)
  | chainedRetryRpc (base : Fut) (op : Operation)
  | locate (table : String) (key : Nat)
  | waitCreate (table : String)
  | group (futs : List Fut)

mutual

/-- Decidable equality for the nested inductive `Fut` (hand-rolled because
`deriving` does not handle the `group` constructor's list argument). -/
def Fut.decEq : (a b : Fut) → Decidable (a = b)
  | .fromResult, .fromResult => isTrue rfl
  | .opDeferred a, .opDeferred b =>
    if h : a = b then isTrue (by rw [h])
    else isFalse (by intro hc; injection hc; exact h (by assumption))
  | .batchDeferred a, .batchDeferred b =>
    if h : a = b then isTrue (by rw [h])
    else isFalse (by intro hc; injection hc; exact h (by assumption))
  | .chainedFlushRetry f t b, .chainedFlushRetry f' t' b' =>
    match Fut.decEq f f' with
    | isTrue hf =>
      if h : t = t' ∧ b = b' then isTrue (by rw [hf, h.1, h.2])
      else isFalse (by
        intro hc; injection hc with h1 h2 h3; exact h ⟨h2, h3⟩)
    | isFalse hf => isFalse (by intro hc; injection hc with h1 h2 h3; exact hf h1)
  | .chainedRetryRpc f o, .chainedRetryRpc f' o' =>
    match Fut.decEq f f' with
    | isTrue hf =>
      if h : o = o' then isTrue (by rw [hf, h])
      else isFalse (by intro hc; injection hc with h1 h2; exact h h2)
    | isFalse hf => isFalse (by intro hc; injection hc with h1 h2; exact hf h1)
  | .locate t k, .locate t' k' =>
    if h : t = t' ∧ k = k' then isTrue (by rw [h.1, h.2])
    else isFalse (by intro hc; injection hc with h1 h2; exact h ⟨h1, h2⟩)
  | .waitCreate t, .waitCreate t' =>
    if h : t = t' then isTrue (by rw [h])
    else isFalse (by intro hc; injection hc; exact h (by assumption))
  | .group fs, .group gs =>
    match Fut.decEqList fs gs with
    | isTrue h => isTrue (by rw [h])
    | isFalse h => isFalse (by intro hc; injection hc with h'; exact h h')
  | .fromResult, .opDeferred _ => isFalse (by intro h; exact Fut.noConfusion h)
  | .fromResult, .batchDeferred _ => isFalse (by intro h; exact Fut.noConfusion h)
  | .fromResult, .chainedFlushRetry _ _ _ => isFalse (by intro h; exact Fut.noConfusion h)
  | .fromResult, .chainedRetryRpc _ _ => isFalse (by intro h; exact Fut.noConfusion h)
  | .fromResult, .locate _ _ => isFalse (by intro h; exact Fut.noConfusion h)
  | .fromResult, .waitCreate _ => isFalse (by intro h; exact Fut.noConfusion h)
  | .fromResult, .group _ => isFalse (by intro h; exact Fut.noConfusion h)
  | .opDeferred _, .fromResult => isFalse (by intro h; exact Fut.noConfusion h)
  | .opDeferred _, .batchDeferred _ => isFalse (by intro h; exact Fut.noConfusion h)
  | .opDeferred _, .chainedFlushRetry _ _ _ => isFalse (by intro h; exact Fut.noConfusion h)
  | .opDeferred _, .chainedRetryRpc _ _ => isFalse (by intro h; exact Fut.noConfusion h)
  | .opDeferred _, .locate _ _ => isFalse (by intro h; exact Fut.noConfusion h)
  | .opDeferred _, .waitCreate _ => isFalse (by intro h; exact Fut.noConfusion h)
  | .opDeferred _, .group _ => isFalse (by intro h; exact Fut.noConfusion h)
  | .batchDeferred _, .fromResult => isFalse (by intro h; exact Fut.noConfusion h)
  | .batchDeferred _, .opDeferred _ => isFalse (by intro h; exact Fut.noConfusion h)
  | .batchDeferred _, .chainedFlushRetry _ _ _ => isFalse (by intro h; exact Fut.noConfusion h)
  | .batchDeferred _, .chainedRetryRpc _ _ => isFalse (by intro h; exact Fut.noConfusion h)
  | .batchDeferred _, .locate _ _ => isFalse (by intro h; exact Fut.noConfusion h)
  | .batchDeferred _, .waitCreate _ => isFalse (by intro h; exact Fut.noConfusion h)
  | .batchDeferred _, .group _ => isFalse (by intro h; exact Fut.noConfusion h)
  | .chainedFlushRetry _ _ _, .fromResult => isFalse (by intro h; exact Fut.noConfusion h)
  | .chainedFlushRetry _ _ _, .opDeferred _ => isFalse (by intro h; exact Fut.noConfusion h)
  | .chainedFlushRetry _ _ _, .batchDeferred _ => isFalse (by intro h; exact Fut.noConfusion h)
  | .chainedFlushRetry _ _ _, .chainedRetryRpc _ _ => isFalse (by intro h; exact Fut.noConfusion h)
  | .chainedFlushRetry _ _ _, .locate _ _ => isFalse (by intro h; exact Fut.noConfusion h)
  | .chainedFlushRetry _ _ _, .waitCreate _ => isFalse (by intro h; exact Fut.noConfusion h)
  | .chainedFlushRetry _ _ _, .group _ => isFalse (by intro h; exact Fut.noConfusion h)
  | .chainedRetryRpc _ _, .fromResult => isFalse (by intro h; exact Fut.noConfusion h)
  | .chainedRetryRpc _ _, .opDeferred _ => isFalse (by intro h; exact Fut.noConfusion h)
  | .chainedRetryRpc _ _, .batchDeferred _ => isFalse (by intro h; exact Fut.noConfusion h)
  | .chainedRetryRpc _ _, .chainedFlushRetry _ _ _ => isFalse (by intro h; exact Fut.noConfusion h)
  | .chainedRetryRpc _ _, .locate _ _ => isFalse (by intro h; exact Fut.noConfusion h)
  | .chainedRetryRpc _ _, .waitCreate _ => isFalse (by intro h; exact Fut.noConfusion h)
  | .chainedRetryRpc _ _, .group _ => isFalse (by intro h; exact Fut.noConfusion h)
  | .locate _ _, .fromResult => isFalse (by intro h; exact Fut.noConfusion h)
  | .locate _ _, .opDeferred _ => isFalse (by intro h; exact Fut.noConfusion h)
  | .locate _ _, .batchDeferred _ => isFalse (by intro h; exact Fut.noConfusion h)
  | .locate _ _, .chainedFlushRetry _ _ _ => isFalse (by intro h; exact Fut.noConfusion h)
  | .locate _ _, .chainedRetryRpc _ _ => isFalse (by intro h; exact Fut.noConfusion h)
  | .locate _ _, .waitCreate _ => isFalse (by intro h; exact Fut.noConfusion h)
  | .locate _ _, .group _ => isFalse (by intro h; exact Fut.noConfusion h)
  | .waitCreate _, .fromResult => isFalse (by intro h; exact Fut.noConfusion h)
  | .waitCreate _, .opDeferred _ => isFalse (by intro h; exact Fut.noConfusion h)
  | .waitCreate _, .batchDeferred _ => isFalse (by intro h; exact Fut.noConfusion h)
  | .waitCreate _, .chainedFlushRetry _ _ _ => isFalse (by intro h; exact Fut.noConfusion h)
  | .waitCreate _, .chainedRetryRpc _ _ => isFalse (by intro h; exact Fut.noConfusion h)
  | .waitCreate _, .locate _ _ => isFalse (by intro h; exact Fut.noConfusion h)
  | .waitCreate _, .group _ => isFalse (by intro h; exact Fut.noConfusion h)
  | .group _, .fromResult => isFalse (by intro h; exact Fut.noConfusion h)
  | .group _, .opDeferred _ => isFalse (by intro h; exact Fut.noConfusion h)
  | .group _, .batchDeferred _ => isFalse (by intro h; exact Fut.noConfusion h)
  | .group _, .chainedFlushRetry _ _ _ => isFalse (by intro h; exact Fut.noConfusion h)
  | .group _, .chainedRetryRpc _ _ => isFalse (by intro h; exact Fut.noConfusion h)
  | .group _, .locate _ _ => isFalse (by intro h; exact Fut.noConfusion h)
  | .group _, .waitCreate _ => isFalse (by intro h; exact Fut.noConfusion h)

/-- Companion decidable equality for lists of `Fut`. -/
def Fut.decEqList : (as bs : List Fut) → Decidable (as = bs)
  | [], [] => isTrue rfl
  | [], _ :: _ => isFalse (by intro h; exact List.noConfusion h)
  | _ :: _, [] => isFalse (by intro h; exact List.noConfusion h)
  | a :: as, b :: bs =>
    match Fut.decEq a b with
    | isTrue h1 =>
      match Fut.decEqList as bs with
      | isTrue h2 => isTrue (by rw [h1, h2])
      | isFalse h2 => isFalse (by intro hc; injection hc with hh ht; exact h2 ht)
    | isFalse h1 => isFalse (by intro hc; injection hc with hh ht; exact h1 hh)

end

instance : DecidableEq Fut := Fut.decEq

/-- Java exceptions thrown by the session. -/
inductive KuduError where
  | illegalArgument (msg : String)
  | nonRecoverable (msg : String)
  | pleaseThrottle (msg : String) (op : Operation) (deferred : Option Fut)
deriving DecidableEq

/-- An RPC handed to the dispatcher (`client.sendRpcToTablet`). -/
inductive Rpc where
  | opRpc (op : Operation)
  | batchRpc (b : Batch)
deriving DecidableEq

/-- Observable side effects of a session call: RPCs handed to the
dispatcher and periodic flushes scheduled on the timer (tablet id and
batch identity of each scheduled `FlusherTask`). -/
structure Effects where
  sent : List Rpc := []
  scheduled : List (Nat × Nat) := []
deriving DecidableEq

instance : Append Effects where
  append a b := ⟨a.sent ++ b.sent, a.scheduled ++ b.scheduled⟩

/-- The mutable state of a `KuduSession`: configuration fields plus the
two tablet-keyed maps (`operations` = accumulating, `operationsInFlight`)
and the lookup list, represented as association lists keyed by tablet id. -/
structure SessionState where
  interval : Nat := 1000
  mutationBufferSpace : Nat := 1000
  flushMode : FlushMode := .AUTO_FLUSH_SYNC
  consistencyMode : ExternalConsistencyMode := .NO_CONSISTENCY
  currentTimeout : Nat := 0
  operations : List (Nat × Batch) := []
  operationsInFlight : List (Nat × Fut) := []
  operationsInLookup : List Operation := []
  nextBatchId : Nat := 0
  timerStopped : Bool := false
deriving DecidableEq

/-- Association-list lookup (models `Map.get`). -/
def aget {β : Type} : List (Nat × β) → Nat → Option β
  | [], _ => none
  | (k', v) :: rest, k => if k' = k then some v else aget rest k

/-- Association-list insert/replace (models `Map.put`). -/
def aput {β : Type} : List (Nat × β) → Nat → β → List (Nat × β)
  | [], k, v => [(k, v)]
  | (k', v') :: rest, k, v =>
    if k' = k then (k, v) :: rest else (k', v') :: aput rest k v

/-- Association-list removal returning the removed value (models
`Map.remove`). -/
def aremoveGet {β : Type} : List (Nat × β) → Nat → Option β × List (Nat × β)
  | [], _ => (none, [])
  | (k', v') :: rest, k =>
    if k' = k then (some v', rest)
    else
      let r := aremoveGet rest k
      (r.1, (k', v') :: r.2)

/-- Removes the first operation with the given object identity (models
`List.remove(o)` under Java reference equality); `none` when absent. -/
def removeFirstByOid : List Operation → Nat → Option (List Operation)
  | [], _ => none
  | o :: rest, oid =>
    if o.oid = oid then some rest
    else (removeFirstByOid rest oid).map (o :: ·)

instance {ε α : Type} [DecidableEq ε] [DecidableEq α] :
    DecidableEq (Except ε α) := fun a b =>
  match a, b with
  | .ok x, .ok y =>
    if h : x = y then isTrue (by rw [h])
    else isFalse (by intro hc; injection hc; exact h (by assumption))
  | .error x, .error y =>
    if h : x = y then isTrue (by rw [h])
    else isFalse (by intro hc; injection hc; exact h (by assumption))
  | .ok _, .error _ => isFalse (by intro h; exact Except.noConfusion h)
  | .error _, .ok _ => isFalse (by intro h; exact Except.noConfusion h)

/-- Result of a session method that can throw: the session state after the
call (Java exceptions leave the object in its state at the throw point),
the returned deferred or thrown exception, and the side effects. -/
structure ApplyResult where
  state : SessionState
  result : Except KuduError Fut
  effects : Effects
deriving DecidableEq

/-- Modelled from the spec: the narrow interfaces of the external
`KuduClient` collaborators consumed by the session (cached tablet lookup,
retry-budget check, table-creation status, lookup-failure classification).
The dispatch calls `sendRpcToTablet` are modelled directly in the session
functions as returning the sent object's own completion future. -/
structure Client where
  cannotRetryRequest : Operation → Bool
  getTablet : String → Nat → Option Nat
  isTableNotServed : String → Bool
  handleLookupExceptions : Operation → Nat → Option Fut

/-- `setFlushMode`: fails (`IllegalArgumentException`) unless `operations`,
`operationsInFlight` and `operationsInLookup` are all empty; on failure the
`flushMode` field is untouched. -/
def setFlushMode (s : SessionState) (flushMode : FlushMode) :
    SessionState × Option KuduError :=
  if ¬ s.operations.isEmpty ∨ ¬ s.operationsInFlight.isEmpty ∨
      ¬ s.operationsInLookup.isEmpty then
    (s, some (.illegalArgument "Cannot change flush mode when writes are buffered"))
  else
    ({ s with flushMode := flushMode }, none)

/-- `setExternalConsistencyMode`: the source checks only `operations`. -/
def setExternalConsistencyMode (s : SessionState) (m : ExternalConsistencyMode) :
    SessionState × Option KuduError :=
  if ¬ s.operations.isEmpty then
    (s, some (.illegalArgument "Cannot change consistency mode when writes are buffered"))
  else
    ({ s with consistencyMode := m }, none)

/-- `setMutationBufferSpace`: the source checks only `operations`. -/
def setMutationBufferSpace (s : SessionState) (size : Nat) :
    SessionState × Option KuduError :=
  if ¬ s.operations.isEmpty then
    (s, some (.illegalArgument "Cannot change the buffer size when operations are buffered"))
  else
    ({ s with mutationBufferSpace := size }, none)

/-- `setFlushInterval` (unconditional). -/
def setFlushInterval (s : SessionState) (interval : Nat) : SessionState :=
  { s with interval := interval }

/-- `setTimeoutMillis` (unconditional). -/
def setTimeoutMillis (s : SessionState) (timeout : Nat) : SessionState :=
  { s with currentTimeout := timeout }

/-- `hasPendingOperations`: the source returns the constant `false`
(`return false; // TODO`). -/
def hasPendingOperations (_s : SessionState) : Bool :=
  false

/-- `flushTablet(tablet, expectedBatch)`: returns a completed-null deferred
if the accumulating batch for `tablet` is no longer `expectedBatch`; chains
a `FlushRetryCallback` onto the in-flight deferred when one exists;
otherwise removes the batch from `operations`, records its deferred (with
the `OpInFlightCallback` attached) in `operationsInFlight`, applies the
session timeout to the batch, and hands it to the dispatcher. -/
def flushTablet (s : SessionState) (tablet : Nat) (expectedBatch : Batch) :
    SessionState × Fut × Effects :=
  if aget s.operations tablet ≠ some expectedBatch then
    (s, .fromResult, {})
  else
    match aget s.operationsInFlight tablet with
    | some inFlightD =>
      -- the callback is built with operations.get(tablet), which the guard
      -- above equates with expectedBatch
      (s, .chainedFlushRetry inFlightD tablet expectedBatch, {})
    | none =>
      match aremoveGet s.operations tablet with
      | (none, _) => (s, .fromResult, {})
      | (some batch, remaining) =>
        let s1 := { s with operations := remaining }
        let batchDeferred := Fut.batchDeferred batch.bid
        let s2 := { s1 with
          operationsInFlight := aput s1.operationsInFlight tablet batchDeferred }
        let batch' :=
          if s.currentTimeout ≠ 0 then
            { batch with timeoutMillis := s.currentTimeout }
          else batch
        (s2, batchDeferred, { sent := [.batchRpc batch'] })

/-- `FlushRetryCallback.call`: once the previous in-flight batch is done,
flush the tablet again. -/
def flushRetryCallbackCall (s : SessionState) (tablet : Nat) (expectedBatch : Batch) :
    SessionState × Fut × Effects :=
  flushTablet s tablet expectedBatch

/-- `OpInFlightCallback.call`: remove the tablet from the in-flight map. -/
def opInFlightCallbackCall (s : SessionState) (tablet : Nat) : SessionState :=
  { s with operationsInFlight := (aremoveGet s.operationsInFlight tablet).2 }

/-- `FlusherTask.run`: a timer fire just calls `flushTablet`. -/
def flusherTaskRun (s : SessionState) (tabletSlice : Nat) (expectedBatch : Batch) :
    SessionState × Fut × Effects :=
  flushTablet s tabletSlice expectedBatch

/-- The tail of `addToBuffer` for the `batch == null` case: create a fresh
batch with the session's consistency mode, install the batch callbacks,
put it into `operations`, append the operation, and (first insert only)
schedule the periodic flush when in background mode. -/
def addToBufferNewBatch (s : SessionState) (tablet : Nat) (operation : Operation)
    (eff : Effects) : ApplyResult :=
  let newBatch : Batch :=
    { bid := s.nextBatchId
      table := operation.table
      ops := [operation]
      externalConsistencyMode := s.consistencyMode }
  let s1 := { s with
    nextBatchId := s.nextBatchId + 1
    operations := aput s.operations tablet newBatch }
  let eff' :=
    if s.flushMode = FlushMode.AUTO_FLUSH_BACKGROUND then
      eff ++ ({ scheduled := [(tablet, newBatch.bid)] } : Effects)
    else eff
  { state := s1, result := .ok (.opDeferred operation.oid), effects := eff' }

/-- `addToBuffer(tablet, operation)`: batches the operation with the
others for the tablet; on overflow either throws `NonRecoverableException`
(manual flush) or flushes and, when the flush was blocked by an in-flight
batch, throws `PleaseThrottleException` carrying
`operationsInFlight.get(tablet)`. -/
def addToBuffer (s : SessionState) (tablet : Nat) (operation : Operation) :
    ApplyResult :=
  match aget s.operations tablet with
  | some batch =>
    if batch.ops.length + 1 > s.mutationBufferSpace then
      if s.flushMode = FlushMode.MANUAL_FLUSH then
        { state := s
          result := .error (.nonRecoverable "MANUAL_FLUSH is enabled but the buffer is too big")
          effects := {} }
      else
        let r := flushTablet s tablet batch
        if (aget r.1.operations tablet).isSome then
          { state := r.1
            result := .error (.pleaseThrottle
              "The RPC cannot be buffered because the current buffer is full and the previous buffer hasn't been flushed yet"
              operation (aget r.1.operationsInFlight tablet))
            effects := r.2.2 }
        else
          addToBufferNewBatch r.1 tablet operation r.2.2
    else
      let batch' := { batch with ops := batch.ops ++ [operation] }
      { state := { s with operations := aput s.operations tablet batch' }
        result := .ok (.opDeferred operation.oid)
        effects := {} }
  | none => addToBufferNewBatch s tablet operation {}

/-- `apply(operation)`: rejects retry-exhausted operations (modelled from
the spec: `tooManyAttemptsOrTimeout` completes the operation's own future
with a terminal error and returns it); dispatches directly in
`AUTO_FLUSH_SYNC`; buffers via `addToBuffer` when the tablet is cached;
otherwise enqueues the operation into `operationsInLookup`, bumps its
attempt counter, and returns a lookup future with the retry continuation
chained on. -/
def apply (client : Client) (s : SessionState) (operation : Operation) :
    ApplyResult :=
  if client.cannotRetryRequest operation then
    { state := s, result := .ok (.opDeferred operation.oid), effects := {} }
  else if s.flushMode = FlushMode.AUTO_FLUSH_SYNC then
    let op1 :=
      if s.currentTimeout ≠ 0 then
        { operation with timeoutMillis := s.currentTimeout }
      else operation
    let op2 := { op1 with externalConsistencyMode := s.consistencyMode }
    { state := s, result := .ok (.opDeferred op2.oid)
      effects := { sent := [.opRpc op2] } }
  else
    match client.getTablet operation.table operation.key with
    | some tablet =>
      let op' := { operation with tablet := some tablet }
      addToBuffer s tablet op'
    | none =>
      -- the list stores the same object whose attempt counter is then
      -- incremented, so the stored value carries the incremented counter
      let op' := { operation with attempt := operation.attempt + 1 }
      let s1 := { s with operationsInLookup := s.operationsInLookup ++ [op'] }
      if client.isTableNotServed operation.table then
        { state := s1
          result := .ok (.chainedRetryRpc (.waitCreate operation.table) op')
          effects := {} }
      else
        { state := s1
          result := .ok (.chainedRetryRpc (.locate operation.table operation.key) op')
          effects := {} }

/-- `RetryRpcCB.call(arg)`: if the operation is no longer in
`operationsInLookup` it was rescued by `flush()` — return a completed-null
deferred without touching any state; otherwise remove it, consult
`handleLookupExceptions`, re-`apply`, and on `PleaseThrottleException`
re-enqueue the operation and chain a fresh retry continuation onto the
throttle's deferred. -/
def retryRpcCB (client : Client) (s : SessionState) (operation : Operation)
    (arg : Nat) : ApplyResult :=
  match removeFirstByOid s.operationsInLookup operation.oid with
  | none => { state := s, result := .ok .fromResult, effects := {} }
  | some rest =>
    let s1 := { s with operationsInLookup := rest }
    match client.handleLookupExceptions operation arg with
    | some d => { state := s1, result := .ok d, effects := {} }
    | none =>
      let r := apply client s1 operation
      match r.result with
      | .error (.pleaseThrottle _ _ pteD) =>
        { state := { r.state with
            operationsInLookup := r.state.operationsInLookup ++ [operation] }
          result := .ok (.chainedRetryRpc (pteD.getD .fromResult) operation)
          effects := r.effects }
      | _ => r

/-- The `flushTablet` loop of `flush()` over the copied accumulating map,
collecting the returned deferreds and effects. -/
def flushBatches : SessionState → List (Nat × Batch) →
    SessionState × List Fut × Effects
  | s, [] => (s, [], {})
  | s, (t, b) :: rest =>
    let r := flushTablet s t b
    let rr := flushBatches r.1 rest
    (rr.1, r.2.1 :: rr.2.1, r.2.2 ++ rr.2.2)

/-- `flush()`: under the lock, copy `operations`, copy and clear
`operationsInLookup` and dispatch each formerly-pending lookup operation
directly; then flush every copied batch and group all collected
deferreds. -/
def flush (s : SessionState) : SessionState × Fut × Effects :=
  let copyOfOps := s.operations
  let copyOfLookup := s.operationsInLookup
  let s1 := { s with operationsInLookup := [] }
  let lookupFuts := copyOfLookup.map (fun op => Fut.opDeferred op.oid)
  let lookupEff : Effects := { sent := copyOfLookup.map Rpc.opRpc }
  let r := flushBatches s1 copyOfOps
  (r.1, .group (lookupFuts ++ r.2.1), lookupEff ++ r.2.2)

/-- `close()`: stops the timer and returns `flush()`. -/
def close (s : SessionState) : SessionState × Fut × Effects :=
  flush { s with timerStopped := true }

/-- A per-row error of the write response (`{rowIndex, detail}`). -/
structure RowError where
  rowIndex : Nat
  detail : String
deriving DecidableEq

/-- The write-response shape consumed by `BatchCallback.call` (top-level
error presence and message, optional write timestamp, positionally ordered
per-row errors). -/
structure WriteResponse where
  hasErrorCode : Bool := false
  errorMessage : String := ""
  writeTimestamp : Option Nat := none
  perRowErrors : List RowError := []
deriving DecidableEq

/-- The per-row-error assignment loop of `BatchCallback.call`, verbatim:
`errorsIndex` starts at 0 and, for each op index `i`, the value delivered
to the op's callback is `perRowErrors[errorsIndex]` *after* incrementing
`errorsIndex`, guarded by `errorsIndex + 1 < count` and
`perRowErrors[errorsIndex].rowIndex == i`; otherwise null.  `remaining`
counts the ops left to walk (`request.ops.size() - i`). -/
def batchCallbackAssign (errs : List RowError) :
    (remaining : Nat) → (i : Nat) → (errorsIndex : Nat) → List (Option RowError)
  | 0, _, _ => []
  | remaining + 1, i, errorsIndex =>
    if errorsIndex + 1 < errs.length ∧
        (errs.getD errorsIndex ⟨0, ""⟩).rowIndex = i then
      some (errs.getD (errorsIndex + 1) ⟨0, ""⟩) ::
        batchCallbackAssign errs remaining (i + 1) (errorsIndex + 1)
    else
      none :: batchCallbackAssign errs remaining (i + 1) errorsIndex

/-- `BatchCallback.call` on a write response: throws on a top-level error
code, otherwise walks the batch's ops delivering each op's per-row value as
computed by `batchCallbackAssign` and returns the response unchanged.  (The
`InvalidResponseException` branch for non-write-responses is typed away by
taking a `WriteResponse` argument.) -/
def batchCallbackCall (request : Batch) (resp : WriteResponse) :
    Except KuduError (List (Operation × Option RowError) × WriteResponse) :=
  if resp.hasErrorCode then
    .error (.nonRecoverable resp.errorMessage)
  else
    .ok (request.ops.zip (batchCallbackAssign resp.perRowErrors request.ops.length 0 0), resp)

/-- Whether a symbolic deferred is already completed at the moment it is
returned: `Deferred.fromResult` is, and a `Deferred.group` is as soon as
all its members are. -/
def Fut.doneNow : Fut → Bool
  | .fromResult => true
  | .group futs => futs.attach.all (fun f => Fut.doneNow f.1)
  | _ => false
decreasing_by
  have h := List.sizeOf_lt_of_mem f.2
  simp only [Fut.group.sizeOf_spec]
  omega

/-!
Dynamics of the deferred callback chains after a `flush()` call, used to
settle the completion clause of the flush contract.  In the source,
`com.stumbleupon.async.Deferred` runs a deferred's callbacks in attachment
order when the deferred completes; a callback returning a not-yet-completed
`Deferred` (an `addBothDeferring` continuation such as `FlushRetryCallback`)
pauses the chain, which resumes — with the remaining callbacks — once the
inner deferred completes.  This is modelled by explicit callback queues:
completing an outstanding RPC runs its queue; a `FlushRetryCallback` whose
`flushTablet` re-blocks or dispatches migrates the remainder of the queue
onto the deferred it is now waiting on.  The only external events are
dispatcher completions of outstanding RPCs (the client is quiescent after
the flush).  Callbacks whose target deferred no longer exists are dropped —
dropping can only delay deliveries, never produce one early, so it is
conservative for the "completes only after" direction proved here.
-/

/-- A callback in a deferred's chain: the `OpInFlightCallback` for a
tablet, a `FlushRetryCallback` capturing its tablet and expected batch, or
a membership callback of the `Deferred.group` returned by `flush()`
(identified by the member's position in the group). -/
inductive Cb where
  | opInFlight (tablet : Nat)
  | flushRetry (tablet : Nat) (expectedBatch : Batch)
  | member (token : Nat)
deriving DecidableEq

/-- The callback chain of an outstanding batch RPC: the batch's tablet,
the batch object's identity, and the queued callbacks. -/
structure Chain where
  tablet : Nat
  bid : Nat
  queue : List Cb
deriving DecidableEq

/-- The callback chain of an outstanding solo operation RPC. -/
structure OpChain where
  oid : Nat
  queue : List Cb
deriving DecidableEq

/-- A world: the session state plus the outstanding RPC chains, which
batch/op deferreds have completed (reached their terminal state), and
which group-member callbacks have been delivered. -/
structure World where
  sess : SessionState
  chains : List Chain
  opChains : List OpChain
  completedBatches : List Nat
  completedOps : List Nat
  delivered : List Nat
deriving DecidableEq

/-- Append callbacks to the (first) chain with the given batch identity;
if no such chain is outstanding the callbacks are dropped. -/
def appendToChain : List Chain → Nat → List Cb → List Chain
  | [], _, _ => []
  | c :: rest, bid, cbs =>
    if c.bid = bid then { c with queue := c.queue ++ cbs } :: rest
    else c :: appendToChain rest bid cbs

/-- Run a callback queue whose parent deferred has just completed:
`OpInFlightCallback` clears the in-flight entry, a group member is
delivered, and `FlushRetryCallback` runs `flushTablet` — continuing in
place on a completed-null result, migrating the remaining queue onto the
in-flight deferred's chain (re-queuing itself first, as `addBothDeferring`
leaves it attached there) when blocked again, and migrating the remaining
queue onto the newly dispatched batch's chain (behind its
`OpInFlightCallback`) when it dispatches. -/
def runQueue : World → List Cb → World
  | w, [] => w
  | w, Cb.opInFlight t :: rest =>
      runQueue { w with sess := opInFlightCallbackCall w.sess t } rest
  | w, Cb.member tok :: rest =>
      runQueue { w with delivered := w.delivered ++ [tok] } rest
  | w, Cb.flushRetry t b :: rest =>
      let r := flushTablet w.sess t b
      match r.2.1 with
      | Fut.fromResult => runQueue { w with sess := r.1 } rest
      | Fut.chainedFlushRetry (Fut.batchDeferred gbid) _ _ =>
          { w with sess := r.1
                   chains := appendToChain w.chains gbid (Cb.flushRetry t b :: rest) }
      | Fut.batchDeferred nbid =>
          { w with sess := r.1
                   chains := w.chains ++ [⟨t, nbid, Cb.opInFlight t :: rest⟩] }
      | _ => { w with sess := r.1 }

/-- Remove the (first) chain with the given batch identity, returning it. -/
def removeChain : List Chain → Nat → Option Chain × List Chain
  | [], _ => (none, [])
  | c :: rest, bid =>
    if c.bid = bid then (some c, rest)
    else
      let r := removeChain rest bid
      (r.1, c :: r.2)

/-- Remove the (first) op chain with the given operation identity. -/
def removeOpChain : List OpChain → Nat → Option OpChain × List OpChain
  | [], _ => (none, [])
  | c :: rest, oid =>
    if c.oid = oid then (some c, rest)
    else
      let r := removeOpChain rest oid
      (r.1, c :: r.2)

/-- The dispatcher completes the outstanding RPC of batch `bid`: the
batch's deferred reaches its terminal state and its callback chain runs. -/
def completeBatch (w : World) (bid : Nat) : World :=
  match removeChain w.chains bid with
  | (none, _) => w
  | (some c, rest) =>
      runQueue { w with chains := rest
                        completedBatches := w.completedBatches ++ [bid] } c.queue

/-- The dispatcher completes the outstanding solo RPC of operation `oid`. -/
def completeOp (w : World) (oid : Nat) : World :=
  match removeOpChain w.opChains oid with
  | (none, _) => w
  | (some c, rest) =>
      runQueue { w with opChains := rest
                        completedOps := w.completedOps ++ [oid] } c.queue

/-- One external event: the dispatcher completes some outstanding RPC. -/
inductive WStep : World → World → Prop where
  | batch (w : World) (bid : Nat) : WStep w (completeBatch w bid)
  | op (w : World) (oid : Nat) : WStep w (completeOp w oid)

/-- Finitely many dispatcher events. -/
inductive WSteps : World → World → Prop where
  | refl (w : World) : WSteps w w
  | tail {a b c : World} : WSteps a b → WStep b c → WSteps a c

/-- The chains outstanding before `flush()` is called: one per in-flight
map entry (each holds the dispatched batch's deferred with its
`OpInFlightCallback` attached at dispatch time). -/
def initialChains : List (Nat × Fut) → List Chain
  | [] => []
  | (t, Fut.batchDeferred gb) :: rest => ⟨t, gb, [Cb.opInFlight t]⟩ :: initialChains rest
  | _ :: rest => initialChains rest

/-- `Deferred.group` membership for the directly dispatched
formerly-lookup-pending operations: the group's member callback is
attached to each operation's own deferred; member tokens are the
operations' positions in the group. -/
def installOpMembers : World → Nat → List Operation → World
  | w, _, [] => w
  | w, tokBase, op :: rest =>
      installOpMembers
        { w with opChains := w.opChains ++ [⟨op.oid, [Cb.member tokBase]⟩] }
        (tokBase + 1) rest

/-- The `flushTablet` loop of `flush()` with `Deferred.group` membership:
for each snapshot entry the session evolves exactly as in `flushBatches`,
and the member callback is attached to the deferred `flushTablet`
returned — on the dispatched batch's own chain (behind its
`OpInFlightCallback`) when it dispatched, or on the in-flight deferred's
chain behind the `FlushRetryCallback` that `flushTablet` chained there
when it was blocked. -/
def installBatchMembers : World → Nat → List (Nat × Batch) → World
  | w, _, [] => w
  | w, tokBase, (t, b) :: rest =>
    let r := flushTablet w.sess t b
    let w' :=
      match r.2.1 with
      | Fut.batchDeferred nbid =>
          { w with sess := r.1
                   chains := w.chains ++ [⟨t, nbid, [Cb.opInFlight t, Cb.member tokBase]⟩] }
      | Fut.chainedFlushRetry (Fut.batchDeferred gbid) _ _ =>
          { w with sess := r.1
                   chains := appendToChain w.chains gbid [Cb.flushRetry t b, Cb.member tokBase] }
      | _ => { w with sess := r.1 }
    installBatchMembers w' (tokBase + 1) rest

/-- The world immediately after `flush()` returns on session state `s`:
the lookup list has been snapshotted, cleared and dispatched (tokens
`0..n-1` where `n` is the snapshot length), and each snapshot batch has
been passed to `flushTablet` with its group member installed (tokens
`n..n+m-1` in snapshot order). -/
def postFlushWorld (s : SessionState) : World :=
  let w0 : World :=
    { sess := { s with operationsInLookup := [] }
      chains := initialChains s.operationsInFlight
      opChains := []
      completedBatches := []
      completedOps := []
      delivered := [] }
  let w1 := installOpMembers w0 0 s.operationsInLookup
  installBatchMembers w1 s.operationsInLookup.length s.operations

/-- Queue discipline: every occurrence of the group-member callback `tok`
in `q` is preceded by an occurrence of the `FlushRetryCallback` for
`(t, b)`; so the member can fire only after that retry has resolved. -/
def guardedQueue (t : Nat) (b : Batch) (tok : Nat) (q : List Cb) : Prop :=
  ∀ q1 q2, q = q1 ++ Cb.member tok :: q2 → Cb.flushRetry t b ∈ q1

/-- The member callback `tok` appears in no solo-operation chain. -/
def tokFreeOps (w : World) (tok : Nat) : Prop :=
  ∀ oc ∈ w.opChains, Cb.member tok ∉ oc.queue

/-- A chain that holds neither the member callback `tok` nor the
`FlushRetryCallback` for `(t, b)`. -/
def cleanFor (t : Nat) (b : Batch) (tok : Nat) (c : Chain) : Prop :=
  Cb.member tok ∉ c.queue ∧ Cb.flushRetry t b ∉ c.queue

/-- Member `tok` occurs only on chains of batch `b`'s own RPC, whose
completion records `b`'s terminal state before any callback runs. -/
def confOwn (w : World) (b : Batch) (tok : Nat) : Prop :=
  tokFreeOps w tok ∧ ∀ c ∈ w.chains, Cb.member tok ∈ c.queue → c.bid = b.bid

/-- Member `tok` sits behind the pending `FlushRetryCallback` for `(t, b)`
on a single chain, while `b` still accumulates for `t` (so the retry will
dispatch `b` — or re-block — rather than no-op); no other chain holds the
member or the retry. -/
def confGuarded (w : World) (t : Nat) (b : Batch) (tok : Nat) : Prop :=
  aget w.sess.operations t = some b ∧
  tokFreeOps w tok ∧
  (∀ oc ∈ w.opChains, Cb.flushRetry t b ∉ oc.queue) ∧
  ∃ l1 c l2, w.chains = l1 ++ c :: l2 ∧
    guardedQueue t b tok c.queue ∧
    (∀ c' ∈ l1 ++ l2, cleanFor t b tok c')

/-- Member `tok` occurs nowhere: it can never be delivered. -/
def confNone (w : World) (tok : Nat) : Prop :=
  tokFreeOps w tok ∧ ∀ c ∈ w.chains, Cb.member tok ∉ c.queue

/-- The completion invariant for group member `tok` tracking batch `b` of
tablet `t`: either the member was delivered after `b`'s deferred
completed, or it is undelivered and located safely. -/
def BatchTokInv (t : Nat) (b : Batch) (tok : Nat) (w : World) : Prop :=
  (tok ∈ w.delivered → b.bid ∈ w.completedBatches) ∧
  (b.bid ∈ w.completedBatches
   ∨ (tok ∉ w.delivered ∧
      (confOwn w b tok ∨ confGuarded w t b tok ∨ confNone w tok)))

/-- The completion invariant for group member `tok` tracking the directly
dispatched formerly-lookup-pending operation `oid`. -/
def OpTokInv (oid : Nat) (tok : Nat) (w : World) : Prop :=
  (tok ∈ w.delivered → oid ∈ w.completedOps) ∧
  (oid ∈ w.completedOps
   ∨ (tok ∉ w.delivered ∧ (∀ c ∈ w.chains, Cb.member tok ∉ c.queue) ∧
      (∀ oc ∈ w.opChains, Cb.member tok ∈ oc.queue → oc.oid = oid)))

/-- Claim C1: the claim states that the batch completion callback aligns
per-row errors by position (op `i` receives the next error when its
`rowIndex` equals `i`), so that for a batch of 3 ops and per-row errors
`[{index:1, detail:X}]` op 1 receives X.  The source's loop instead tests
`errorsIndex + 1 < errorCount` and reads the error *after* incrementing the
cursor, so on this input every op receives null — the code contradicts the
claimed (and intended) alignment. -/
theorem c1_per_row_error_misalignment :
    batchCallbackAssign [⟨1, "X"⟩] 3 0 0 = [none, none, none]
  ∧ batchCallbackAssign [⟨1, "X"⟩] 3 0 0 ≠ [none, some ⟨1, "X"⟩, none]
  ∧ batchCallbackCall { bid := 0, table := "T"
                        , ops := [{ oid := 0, table := "T", key := 0 },
                                  { oid := 1, table := "T", key := 1 },
                                  { oid := 2, table := "T", key := 2 }] }
                      { perRowErrors := [⟨1, "X"⟩] }
      = .ok ([({ oid := 0, table := "T", key := 0 }, none),
              ({ oid := 1, table := "T", key := 1 }, none),
              ({ oid := 2, table := "T", key := 2 }, none)],
             { perRowErrors := [⟨1, "X"⟩] }) := by
  refine ⟨by decide, by decide, by decide⟩

/-- Claim C2 counterexample: in a session state whose `operationsInFlight`
map is non-empty (while `operations` is empty), the claim requires
`setExternalConsistencyMode` to fail, but the source checks only
`operations` and the call succeeds and updates the field. -/
theorem c2_setters_counterexample :
    (setExternalConsistencyMode
        { operationsInFlight := [(0, Fut.fromResult)] } .CLIENT_PROPAGATED).2 = none
  ∧ (setExternalConsistencyMode
        { operationsInFlight := [(0, Fut.fromResult)] } .CLIENT_PROPAGATED).1.consistencyMode
      = .CLIENT_PROPAGATED
  ∧ ({ operationsInFlight := [(0, Fut.fromResult)] } : SessionState).operationsInFlight ≠ [] := by
  refine ⟨by decide, by decide, by decide⟩

/-- Claim C2 (amended): `setFlushMode` succeeds iff `operations`,
`operationsInFlight` and `operationsInLookup` are all empty, while
`setExternalConsistencyMode` and `setMutationBufferSpace` succeed iff
`operations` alone is empty; each setter that fails throws synchronously
and leaves the session (in particular its configuration field)
unchanged, and each success installs the new value. -/
theorem c2_setters_amended (s : SessionState) (m : FlushMode)
    (c : ExternalConsistencyMode) (n : Nat) :
    ((setFlushMode s m).2 = none ↔
      (s.operations = [] ∧ s.operationsInFlight = [] ∧ s.operationsInLookup = []))
  ∧ ((setExternalConsistencyMode s c).2 = none ↔ s.operations = [])
  ∧ ((setMutationBufferSpace s n).2 = none ↔ s.operations = [])
  ∧ ((setFlushMode s m).2 ≠ none → (setFlushMode s m).1 = s)
  ∧ ((setExternalConsistencyMode s c).2 ≠ none → (setExternalConsistencyMode s c).1 = s)
  ∧ ((setMutationBufferSpace s n).2 ≠ none → (setMutationBufferSpace s n).1 = s)
  ∧ ((setFlushMode s m).2 = none → (setFlushMode s m).1 = { s with flushMode := m })
  ∧ ((setExternalConsistencyMode s c).2 = none →
      (setExternalConsistencyMode s c).1 = { s with consistencyMode := c })
  ∧ ((setMutationBufferSpace s n).2 = none →
      (setMutationBufferSpace s n).1 = { s with mutationBufferSpace := n }) := by
  unfold setFlushMode setExternalConsistencyMode setMutationBufferSpace
  refine ⟨?_, ?_, ?_, ?_, ?_, ?_, ?_, ?_, ?_⟩ <;>
    split_ifs with h <;> simp_all [List.isEmpty_iff] <;> tauto

/-- Claim C2 amended, witnessed at a concrete non-empty state: the flush
mode setter fails (state unchanged) while the consistency-mode setter's
success is equivalent to `operations` being empty. -/
theorem c2_setters_amended_witness :
    ((setFlushMode { operationsInFlight := [(0, Fut.fromResult)] } .MANUAL_FLUSH).2 = none ↔
      (([] : List (Nat × Batch)) = [] ∧ ([(0, Fut.fromResult)] : List (Nat × Fut)) = []
        ∧ ([] : List Operation) = []))
  ∧ ((setExternalConsistencyMode { operationsInFlight := [(0, Fut.fromResult)] }
        .CLIENT_PROPAGATED).2 = none ↔ ([] : List (Nat × Batch)) = []) := by
  have h := c2_setters_amended { operationsInFlight := [(0, Fut.fromResult)] }
    .MANUAL_FLUSH .CLIENT_PROPAGATED 5
  exact ⟨h.1, h.2.1⟩

/-- Claim C3: in `MANUAL_FLUSH` mode, applying an operation whose cached
tablet already holds a full accumulating batch throws the non-recoverable
buffer-full error, with the session state unchanged (the batch is not
flushed and the operation is not appended) and nothing dispatched or
scheduled. -/
theorem c3_manual_buffer_full (client : Client) (s : SessionState)
    (op : Operation) (t : Nat) (b : Batch)
    (hretry : client.cannotRetryRequest op = false)
    (hmode : s.flushMode = .MANUAL_FLUSH)
    (hcached : client.getTablet op.table op.key = some t)
    (hb : aget s.operations t = some b)
    (hfull : b.ops.length + 1 > s.mutationBufferSpace) :
    apply client s op =
      { state := s
        result := .error (.nonRecoverable "MANUAL_FLUSH is enabled but the buffer is too big")
        effects := {} } := by
  unfold apply addToBuffer
  simp [hretry, hmode, hcached, hb, hfull]

/-- Claim C3 witness: a concrete manual-mode session with a full one-slot
batch rejects the next operation for that tablet with the buffer-full
error and is left unchanged. -/
theorem c3_manual_buffer_full_witness :
    apply ⟨fun _ => false, fun _ _ => some 7, fun _ => false, fun _ _ => none⟩
      { flushMode := .MANUAL_FLUSH, mutationBufferSpace := 1
        , operations := [(7, { bid := 0, table := "T"
                               , ops := [{ oid := 0, table := "T", key := 0 }] })] }
      { oid := 1, table := "T", key := 1 } =
      { state := { flushMode := .MANUAL_FLUSH, mutationBufferSpace := 1
                   , operations := [(7, { bid := 0, table := "T"
                                          , ops := [{ oid := 0, table := "T", key := 0 }] })] }
        result := .error (.nonRecoverable "MANUAL_FLUSH is enabled but the buffer is too big")
        effects := {} } := by
  exact c3_manual_buffer_full _ _ _ 7
    { bid := 0, table := "T", ops := [{ oid := 0, table := "T", key := 0 }] }
    rfl rfl rfl (by decide) (by decide)

/-- Claim C7: when the accumulating batch for a tablet is no longer the
expected one (already flushed, e.g. by a size trigger), `flushTablet` is a
pure no-op returning the already-completed null deferred, and a
`FlusherTask` timer fire (which just calls `flushTablet`) is therefore a
no-op too. -/
theorem c7_flush_tablet_noop (s : SessionState) (t : Nat) (b : Batch)
    (h : aget s.operations t ≠ some b) :
    flushTablet s t b = (s, .fromResult, {})
  ∧ flusherTaskRun s t b = (s, .fromResult, {})
  ∧ Fut.doneNow .fromResult = true := by
  unfold flusherTaskRun flushTablet
  simp [h, Fut.doneNow]

/-- Claim C7 witness: on a session with an empty accumulating map, a timer
fire for any batch is a no-op. -/
theorem c7_flush_tablet_noop_witness :
    flushTablet {} 0 { bid := 3, table := "T" } = ({}, .fromResult, {})
  ∧ flusherTaskRun {} 0 { bid := 3, table := "T" } = ({}, .fromResult, {})
  ∧ Fut.doneNow .fromResult = true :=
  c7_flush_tablet_noop {} 0 { bid := 3, table := "T" } (by decide)

/-- Claim C8: `hasPendingOperations` returns `false` in every session
state, also when the accumulating, in-flight or lookup collections are
non-empty — the source leaves it unimplemented as a constant. -/
theorem c8_has_pending_operations_false (s : SessionState) :
    hasPendingOperations s = false :=
  rfl

/-- Claim C4: in a buffering (non-manual, non-sync) flush mode, applying
an operation that overflows a full accumulating batch while a previous
batch for the same tablet is in flight throws `PleaseThrottleException`
whose attached deferred is exactly `operationsInFlight.get(tablet)` — the
future that completes when the in-flight batch completes — with the
session state unchanged and nothing dispatched. -/
theorem c4_throttle_carries_in_flight (client : Client) (s : SessionState)
    (op : Operation) (t : Nat) (b : Batch) (g : Fut)
    (hretry : client.cannotRetryRequest op = false)
    (hmodeM : s.flushMode ≠ .MANUAL_FLUSH)
    (hmodeS : s.flushMode ≠ .AUTO_FLUSH_SYNC)
    (hcached : client.getTablet op.table op.key = some t)
    (hb : aget s.operations t = some b)
    (hfull : b.ops.length + 1 > s.mutationBufferSpace)
    (hg : aget s.operationsInFlight t = some g) :
    apply client s op =
      { state := s
        result := .error (.pleaseThrottle
          "The RPC cannot be buffered because the current buffer is full and the previous buffer hasn't been flushed yet"
          { op with tablet := some t } (some g))
        effects := {} } := by
  unfold apply addToBuffer flushTablet
  simp [hretry, hmodeM, hmodeS, hcached, hb, hfull, hg]

/-- Claim C4 witness: a concrete background-mode session with a full
one-slot batch for tablet 7 and an in-flight deferred for tablet 7
throttles the next operation, attaching precisely that in-flight
deferred. -/
theorem c4_throttle_carries_in_flight_witness :
    apply ⟨fun _ => false, fun _ _ => some 7, fun _ => false, fun _ _ => none⟩
      { flushMode := .AUTO_FLUSH_BACKGROUND, mutationBufferSpace := 1
        , operations := [(7, { bid := 0, table := "T"
                               , ops := [{ oid := 0, table := "T", key := 0 }] })]
        , operationsInFlight := [(7, Fut.batchDeferred 9)] }
      { oid := 1, table := "T", key := 1 } =
      { state := { flushMode := .AUTO_FLUSH_BACKGROUND, mutationBufferSpace := 1
                   , operations := [(7, { bid := 0, table := "T"
                                          , ops := [{ oid := 0, table := "T", key := 0 }] })]
                   , operationsInFlight := [(7, Fut.batchDeferred 9)] }
        result := .error (.pleaseThrottle
          "The RPC cannot be buffered because the current buffer is full and the previous buffer hasn't been flushed yet"
          { oid := 1, table := "T", key := 1, tablet := some 7 } (some (Fut.batchDeferred 9)))
        effects := {} } := by
  exact c4_throttle_carries_in_flight _ _ _ 7
    { bid := 0, table := "T", ops := [{ oid := 0, table := "T", key := 0 }] }
    (Fut.batchDeferred 9) rfl (by decide) (by decide) rfl (by decide) (by decide) (by decide)

/-- Claim C6: when the accumulating batch for a tablet is the expected one
but a batch is already in flight for that tablet, `flushTablet` neither
dispatches nor drops the batch: the state is unchanged, no RPC is sent,
and the returned deferred is the in-flight deferred with a
`FlushRetryCallback` chained on whose invocation is exactly
`flushTablet(tablet, expectedBatch)` again; moreover a batch deferred is
ever inserted into `operationsInFlight` only when no entry for the tablet
was there (an existing entry is never overwritten). -/
theorem c6_at_most_one_in_flight (s : SessionState) (t : Nat) (b : Batch) (g : Fut)
    (hb : aget s.operations t = some b)
    (hg : aget s.operationsInFlight t = some g) :
    flushTablet s t b = (s, .chainedFlushRetry g t b, {})
  ∧ (∀ (s' : SessionState) (t' : Nat) (b' : Batch),
      flushRetryCallbackCall s' t' b' = flushTablet s' t' b')
  ∧ (∀ (s' : SessionState) (b' : Batch),
      (aget s'.operationsInFlight t).isSome →
      (flushTablet s' t b').1.operationsInFlight = s'.operationsInFlight) := by
  refine ⟨?_, fun s' t' b' => rfl, ?_⟩
  · unfold flushTablet
    simp [hb, hg]
  · intro s' b' hsome
    unfold flushTablet
    cases hIF : aget s'.operationsInFlight t with
    | none => rw [hIF] at hsome; simp at hsome
    | some g' =>
      simp only [hIF]
      split_ifs with h1 <;> rfl

/-- Claim C6 witness: with batch 0 accumulating for tablet 7 and batch 9's
deferred in flight, `flushTablet` returns the chained retry and changes
nothing. -/
theorem c6_at_most_one_in_flight_witness :
    flushTablet
      { operations := [(7, { bid := 0, table := "T"
                             , ops := [{ oid := 0, table := "T", key := 0 }] })]
        , operationsInFlight := [(7, Fut.batchDeferred 9)] }
      7 { bid := 0, table := "T", ops := [{ oid := 0, table := "T", key := 0 }] } =
      ({ operations := [(7, { bid := 0, table := "T"
                              , ops := [{ oid := 0, table := "T", key := 0 }] })]
         , operationsInFlight := [(7, Fut.batchDeferred 9)] },
       .chainedFlushRetry (Fut.batchDeferred 9) 7
         { bid := 0, table := "T", ops := [{ oid := 0, table := "T", key := 0 }] }, {}) :=
  (c6_at_most_one_in_flight _ 7
    { bid := 0, table := "T", ops := [{ oid := 0, table := "T", key := 0 }] }
    (Fut.batchDeferred 9) (by decide) (by decide)).1

/-- Claim C9: invoking the retry continuation for an operation that is no
longer in `operationsInLookup` (e.g. rescued and dispatched by `flush()`)
changes no session state and yields the already-completed null deferred;
consequently, once an invocation's resulting state no longer holds the
operation, any further invocation is the same no-op, so invoking the
continuation more than once yields the terminal outcome of invoking it
once. -/
theorem c9_retry_cb_idempotent (client : Client) (s : SessionState)
    (op : Operation) (arg : Nat)
    (habs : removeFirstByOid s.operationsInLookup op.oid = none) :
    retryRpcCB client s op arg = { state := s, result := .ok .fromResult, effects := {} }
  ∧ (∀ (s2 : SessionState) (arg1 arg2 : Nat),
      removeFirstByOid (retryRpcCB client s2 op arg1).state.operationsInLookup op.oid = none →
      retryRpcCB client (retryRpcCB client s2 op arg1).state op arg2 =
        { state := (retryRpcCB client s2 op arg1).state
          result := .ok .fromResult
          effects := {} }) := by
  have key : ∀ (s' : SessionState) (a : Nat),
      removeFirstByOid s'.operationsInLookup op.oid = none →
      retryRpcCB client s' op a =
        { state := s', result := .ok .fromResult, effects := {} } := by
    intro s' a h
    unfold retryRpcCB
    simp [h]
  exact ⟨key s arg habs, fun s2 arg1 arg2 habs2 => key _ arg2 habs2⟩

/-- Claim C9 witness: with an empty lookup list, the retry continuation is
a no-op returning the completed null deferred. -/
theorem c9_retry_cb_idempotent_witness :
    retryRpcCB ⟨fun _ => false, fun _ _ => none, fun _ => false, fun _ _ => none⟩
      {} { oid := 4, table := "T", key := 0 } 0 =
      { state := {}, result := .ok .fromResult, effects := {} } :=
  (c9_retry_cb_idempotent _ {} { oid := 4, table := "T", key := 0 } 0 (by decide)).1

/-- Claim C10: `flush()` (and therefore `close()`) on a session whose
accumulating map, in-flight map and lookup list are all empty returns the
group of the empty collection of futures — a non-null, already-completed
deferred; and `flush` always returns a `Deferred.group`, never null. -/
theorem c10_flush_empty_completed (s : SessionState)
    (h1 : s.operations = []) (h2 : s.operationsInFlight = [])
    (h3 : s.operationsInLookup = []) :
    (flush s).2.1 = .group []
  ∧ Fut.doneNow (flush s).2.1 = true
  ∧ (close s).2.1 = .group []
  ∧ Fut.doneNow (close s).2.1 = true
  ∧ (∀ (s' : SessionState), ∃ futs, (flush s').2.1 = Fut.group futs) := by
  refine ⟨?_, ?_, ?_, ?_, ?_⟩
  · unfold flush
    simp [h1, h3, flushBatches]
  · unfold flush
    simp [h1, h3, flushBatches, Fut.doneNow]
  · unfold close flush
    simp [h1, h3, flushBatches]
  · unfold close flush
    simp [h1, h3, flushBatches, Fut.doneNow]
  · intro s'
    exact ⟨_, rfl⟩

/-- Claim C10 witness: on the default (empty) session state, `flush` and
`close` return the already-completed empty group. -/
theorem c10_flush_empty_completed_witness :
    (flush {}).2.1 = .group []
  ∧ Fut.doneNow (flush {}).2.1 = true
  ∧ (close {}).2.1 = .group []
  ∧ Fut.doneNow (close {}).2.1 = true
  ∧ (∀ (s' : SessionState), ∃ futs, (flush s').2.1 = Fut.group futs) :=
  c10_flush_empty_completed {} rfl rfl rfl

/-! Helper lemmas about the association-list operations. -/

theorem aget_aput_self {β : Type} (l : List (Nat × β)) (k : Nat) (v : β) :
    aget (aput l k v) k = some v := by
  induction l with
  | nil => simp [aput, aget]
  | cons p rest ih =>
    by_cases h : p.1 = k
    · simp [aput, aget, h]
    · simp [aput, aget, h, ih]

theorem aget_aput_ne {β : Type} (l : List (Nat × β)) (k k' : Nat) (v : β)
    (h : k ≠ k') : aget (aput l k v) k' = aget l k' := by
  induction l with
  | nil => simp [aput, aget, h]
  | cons p rest ih =>
    by_cases hp : p.1 = k
    · simp [aput, aget, hp, h]
    · by_cases hp' : p.1 = k'
      · simp [aput, aget, hp, hp', Ne.symm h]
      · simp [aput, aget, hp, hp', ih]

theorem aremoveGet_fst {β : Type} (l : List (Nat × β)) (k : Nat) :
    (aremoveGet l k).1 = aget l k := by
  induction l with
  | nil => simp [aremoveGet, aget]
  | cons p rest ih =>
    by_cases h : p.1 = k
    · simp [aremoveGet, aget, h]
    · simp [aremoveGet, aget, h, ih]

theorem aget_aremoveGet_ne {β : Type} (l : List (Nat × β)) (k k' : Nat)
    (h : k ≠ k') : aget (aremoveGet l k).2 k' = aget l k' := by
  induction l with
  | nil => simp [aremoveGet, aget]
  | cons p rest ih =>
    by_cases hp : p.1 = k
    · have hp' : ¬ p.1 = k' := by rw [hp]; exact h
      simp [aremoveGet, aget, hp, hp', h]
    · by_cases hp' : p.1 = k'
      · simp [aremoveGet, aget, hp, hp', Ne.symm h]
      · simp [aremoveGet, aget, hp, hp', ih]

/-! Branch lemmas for `flushTablet`. -/

theorem flushTablet_not_expected (s : SessionState) (t : Nat) (b : Batch)
    (h : aget s.operations t ≠ some b) :
    flushTablet s t b = (s, .fromResult, {}) := by
  unfold flushTablet
  simp [h]

theorem flushTablet_blocked (s : SessionState) (t : Nat) (b : Batch) (g : Fut)
    (hb : aget s.operations t = some b)
    (hg : aget s.operationsInFlight t = some g) :
    flushTablet s t b = (s, .chainedFlushRetry g t b, {}) := by
  unfold flushTablet
  simp [hb, hg]

theorem flushTablet_dispatch (s : SessionState) (t : Nat) (b : Batch)
    (hb : aget s.operations t = some b)
    (hg : aget s.operationsInFlight t = none) :
    flushTablet s t b =
      ({ s with operations := (aremoveGet s.operations t).2
                operationsInFlight :=
                  aput s.operationsInFlight t (Fut.batchDeferred b.bid) },
       Fut.batchDeferred b.bid,
       { sent := [Rpc.batchRpc
           (if s.currentTimeout ≠ 0 then { b with timeoutMillis := s.currentTimeout } else b)] }) := by
  have hrg : aremoveGet s.operations t = (some b, (aremoveGet s.operations t).2) := by
    rw [← aremoveGet_fst] at hb
    exact Prod.ext hb rfl
  unfold flushTablet
  rw [if_neg (fun hc => hc hb), hg, hrg]

/-- The session state returned by `flushTablet` preserves an accumulating
entry for any other (tablet, batch) pair; the entry can also survive a
call for the same pair when the tablet is still in flight. -/
theorem flushTablet_acc_preserved (s : SessionState) (t' : Nat) (b' : Batch)
    (t : Nat) (b : Batch)
    (hb : aget s.operations t = some b)
    (hne : ¬(t' = t ∧ b' = b) ∨ (aget s.operationsInFlight t').isSome) :
    aget (flushTablet s t' b').1.operations t = some b := by
  by_cases hacc : aget s.operations t' = some b'
  · cases hg : aget s.operationsInFlight t' with
    | some g => rw [flushTablet_blocked s t' b' g hacc hg]; exact hb
    | none =>
      rw [flushTablet_dispatch s t' b' hacc hg]
      have ht : t' ≠ t := by
        intro he
        rcases hne with hne | hne
        · exact hne ⟨he, by rw [he, hb] at hacc; injection hacc with h'; exact h'.symm⟩
        · rw [hg] at hne; simp at hne
      simpa [aget_aremoveGet_ne _ _ _ ht] using hb
  · rw [flushTablet_not_expected s t' b' hacc]; exact hb

/-- `flushTablet` never removes an in-flight entry and inserts one only at
its own tablet, so any other tablet's in-flight entry is preserved. -/
theorem flushTablet_inflight_preserved (s : SessionState) (t' : Nat) (b' : Batch)
    (t : Nat) (ht : t' ≠ t) :
    aget (flushTablet s t' b').1.operationsInFlight t = aget s.operationsInFlight t := by
  by_cases hacc : aget s.operations t' = some b'
  · cases hg : aget s.operationsInFlight t' with
    | some g => rw [flushTablet_blocked s t' b' g hacc hg]
    | none =>
      rw [flushTablet_dispatch s t' b' hacc hg]
      simpa using aget_aput_ne _ _ _ _ ht
  · rw [flushTablet_not_expected s t' b' hacc]

/-! Rewrite equations for `runQueue`. -/

theorem runQueue_nil (w : World) : runQueue w [] = w := rfl

theorem runQueue_opInFlight (w : World) (t : Nat) (rest : List Cb) :
    runQueue w (Cb.opInFlight t :: rest) =
      runQueue { w with sess := opInFlightCallbackCall w.sess t } rest := rfl

theorem runQueue_member (w : World) (tok : Nat) (rest : List Cb) :
    runQueue w (Cb.member tok :: rest) =
      runQueue { w with delivered := w.delivered ++ [tok] } rest := rfl

theorem runQueue_retry_noop (w : World) (t : Nat) (b : Batch) (rest : List Cb)
    (h : aget w.sess.operations t ≠ some b) :
    runQueue w (Cb.flushRetry t b :: rest) = runQueue w rest := by
  have hr : flushTablet w.sess t b = (w.sess, Fut.fromResult, {}) :=
    flushTablet_not_expected w.sess t b h
  simp [runQueue, hr]

theorem runQueue_retry_blocked (w : World) (t : Nat) (b : Batch) (rest : List Cb)
    (gbid : Nat)
    (hb : aget w.sess.operations t = some b)
    (hg : aget w.sess.operationsInFlight t = some (Fut.batchDeferred gbid)) :
    runQueue w (Cb.flushRetry t b :: rest) =
      { w with chains := appendToChain w.chains gbid (Cb.flushRetry t b :: rest) } := by
  have hr : flushTablet w.sess t b =
      (w.sess, .chainedFlushRetry (Fut.batchDeferred gbid) t b, {}) :=
    flushTablet_blocked w.sess t b _ hb hg
  simp [runQueue, hr]

theorem runQueue_retry_blocked_other (w : World) (t : Nat) (b : Batch)
    (rest : List Cb) (g : Fut)
    (hb : aget w.sess.operations t = some b)
    (hg : aget w.sess.operationsInFlight t = some g)
    (hshape : ∀ gbid, g ≠ Fut.batchDeferred gbid) :
    runQueue w (Cb.flushRetry t b :: rest) = w := by
  have hr : flushTablet w.sess t b = (w.sess, .chainedFlushRetry g t b, {}) :=
    flushTablet_blocked w.sess t b g hb hg
  cases g with
  | batchDeferred gbid => exact absurd rfl (hshape gbid)
  | fromResult => simp [runQueue, hr]
  | opDeferred _ => simp [runQueue, hr]
  | chainedFlushRetry _ _ _ => simp [runQueue, hr]
  | chainedRetryRpc _ _ => simp [runQueue, hr]
  | locate _ _ => simp [runQueue, hr]
  | waitCreate _ => simp [runQueue, hr]
  | group _ => simp [runQueue, hr]

theorem runQueue_retry_dispatch (w : World) (t : Nat) (b : Batch) (rest : List Cb)
    (hb : aget w.sess.operations t = some b)
    (hg : aget w.sess.operationsInFlight t = none) :
    runQueue w (Cb.flushRetry t b :: rest) =
      { w with
          sess := { w.sess with
            operations := (aremoveGet w.sess.operations t).2
            operationsInFlight :=
              aput w.sess.operationsInFlight t (Fut.batchDeferred b.bid) }
          chains := w.chains ++ [⟨t, b.bid, Cb.opInFlight t :: rest⟩] } := by
  have hr := flushTablet_dispatch w.sess t b hb hg
  simp [runQueue, hr]

/-- Exhaustive description of `runQueue` on a `FlushRetryCallback` head:
the retry either finds the batch already flushed (no-op), re-blocks on an
in-flight batch deferred (migrating itself and the remaining queue there),
re-blocks on an in-flight deferred of unexpected shape (remaining queue
dropped), or dispatches the batch (remaining queue migrates behind the new
RPC's `OpInFlightCallback`). -/
theorem runQueue_retry_exhaustive (w : World) (t : Nat) (b : Batch) (rest : List Cb) :
    (aget w.sess.operations t ≠ some b ∧
       runQueue w (Cb.flushRetry t b :: rest) = runQueue w rest)
  ∨ (∃ gbid, aget w.sess.operations t = some b ∧
       aget w.sess.operationsInFlight t = some (Fut.batchDeferred gbid) ∧
       runQueue w (Cb.flushRetry t b :: rest) =
         { w with chains := appendToChain w.chains gbid (Cb.flushRetry t b :: rest) })
  ∨ (∃ g, aget w.sess.operations t = some b ∧
       aget w.sess.operationsInFlight t = some g ∧
       (∀ gbid, g ≠ Fut.batchDeferred gbid) ∧
       runQueue w (Cb.flushRetry t b :: rest) = w)
  ∨ (aget w.sess.operations t = some b ∧
       aget w.sess.operationsInFlight t = none ∧
       runQueue w (Cb.flushRetry t b :: rest) =
         { w with
             sess := { w.sess with
               operations := (aremoveGet w.sess.operations t).2
               operationsInFlight :=
                 aput w.sess.operationsInFlight t (Fut.batchDeferred b.bid) }
             chains := w.chains ++ [⟨t, b.bid, Cb.opInFlight t :: rest⟩] }) := by
  by_cases hacc : aget w.sess.operations t = some b
  · cases hg : aget w.sess.operationsInFlight t with
    | some g =>
      cases g with
      | batchDeferred gbid =>
        exact Or.inr (Or.inl ⟨gbid, hacc, rfl, runQueue_retry_blocked w t b rest gbid hacc hg⟩)
      | fromResult =>
        exact Or.inr (Or.inr (Or.inl ⟨_, hacc, rfl, fun gbid h => Fut.noConfusion h,
          runQueue_retry_blocked_other w t b rest _ hacc hg (fun gbid h => Fut.noConfusion h)⟩))
      | opDeferred o =>
        exact Or.inr (Or.inr (Or.inl ⟨_, hacc, rfl, fun gbid h => Fut.noConfusion h,
          runQueue_retry_blocked_other w t b rest _ hacc hg (fun gbid h => Fut.noConfusion h)⟩))
      | chainedFlushRetry f tt bb =>
        exact Or.inr (Or.inr (Or.inl ⟨_, hacc, rfl, fun gbid h => Fut.noConfusion h,
          runQueue_retry_blocked_other w t b rest _ hacc hg (fun gbid h => Fut.noConfusion h)⟩))
      | chainedRetryRpc f o =>
        exact Or.inr (Or.inr (Or.inl ⟨_, hacc, rfl, fun gbid h => Fut.noConfusion h,
          runQueue_retry_blocked_other w t b rest _ hacc hg (fun gbid h => Fut.noConfusion h)⟩))
      | locate tt kk =>
        exact Or.inr (Or.inr (Or.inl ⟨_, hacc, rfl, fun gbid h => Fut.noConfusion h,
          runQueue_retry_blocked_other w t b rest _ hacc hg (fun gbid h => Fut.noConfusion h)⟩))
      | waitCreate tt =>
        exact Or.inr (Or.inr (Or.inl ⟨_, hacc, rfl, fun gbid h => Fut.noConfusion h,
          runQueue_retry_blocked_other w t b rest _ hacc hg (fun gbid h => Fut.noConfusion h)⟩))
      | group fs =>
        exact Or.inr (Or.inr (Or.inl ⟨_, hacc, rfl, fun gbid h => Fut.noConfusion h,
          runQueue_retry_blocked_other w t b rest _ hacc hg (fun gbid h => Fut.noConfusion h)⟩))
    | none =>
      exact Or.inr (Or.inr (Or.inr ⟨hacc, rfl, runQueue_retry_dispatch w t b rest hacc hg⟩))
  · exact Or.inl ⟨hacc, runQueue_retry_noop w t b rest hacc⟩

/-- `runQueue` never touches the solo-operation chains. -/
theorem runQueue_opChains (q : List Cb) :
    ∀ w : World, (runQueue w q).opChains = w.opChains := by
  induction q with
  | nil => intro w; rfl
  | cons cb rest ih =>
    intro w
    cases cb with
    | opInFlight t => rw [runQueue_opInFlight]; exact ih _
    | member tok => rw [runQueue_member]; exact ih _
    | flushRetry t b =>
      rcases runQueue_retry_exhaustive w t b rest with
        ⟨_, he⟩ | ⟨gbid, _, _, he⟩ | ⟨g, _, _, _, he⟩ | ⟨_, _, he⟩ <;>
        rw [he] <;> try exact ih _

/-- `runQueue` never completes a batch deferred. -/
theorem runQueue_completedBatches (q : List Cb) :
    ∀ w : World, (runQueue w q).completedBatches = w.completedBatches := by
  induction q with
  | nil => intro w; rfl
  | cons cb rest ih =>
    intro w
    cases cb with
    | opInFlight t => rw [runQueue_opInFlight]; exact ih _
    | member tok => rw [runQueue_member]; exact ih _
    | flushRetry t b =>
      rcases runQueue_retry_exhaustive w t b rest with
        ⟨_, he⟩ | ⟨gbid, _, _, he⟩ | ⟨g, _, _, _, he⟩ | ⟨_, _, he⟩ <;>
        rw [he] <;> try exact ih _

/-- `runQueue` never completes a solo-operation deferred. -/
theorem runQueue_completedOps (q : List Cb) :
    ∀ w : World, (runQueue w q).completedOps = w.completedOps := by
  induction q with
  | nil => intro w; rfl
  | cons cb rest ih =>
    intro w
    cases cb with
    | opInFlight t => rw [runQueue_opInFlight]; exact ih _
    | member tok => rw [runQueue_member]; exact ih _
    | flushRetry t b =>
      rcases runQueue_retry_exhaustive w t b rest with
        ⟨_, he⟩ | ⟨gbid, _, _, he⟩ | ⟨g, _, _, _, he⟩ | ⟨_, _, he⟩ <;>
        rw [he] <;> try exact ih _

/-- Deliveries are never retracted. -/
theorem runQueue_delivered_mono (q : List Cb) :
    ∀ (w : World) (x : Nat), x ∈ w.delivered → x ∈ (runQueue w q).delivered := by
  induction q with
  | nil => intro w x hx; exact hx
  | cons cb rest ih =>
    intro w x hx
    cases cb with
    | opInFlight t => rw [runQueue_opInFlight]; exact ih _ _ hx
    | member tok =>
      rw [runQueue_member]
      exact ih _ _ (by simp [hx])
    | flushRetry t b =>
      rcases runQueue_retry_exhaustive w t b rest with
        ⟨_, he⟩ | ⟨gbid, _, _, he⟩ | ⟨g, _, _, _, he⟩ | ⟨_, _, he⟩ <;> rw [he]
      · exact ih _ _ hx
      · exact hx
      · exact hx
      · exact hx

/-- A new delivery can only come from a member callback of the queue that
was run. -/
theorem runQueue_delivered_new (q : List Cb) :
    ∀ (w : World) (x : Nat), x ∈ (runQueue w q).delivered →
      x ∈ w.delivered ∨ Cb.member x ∈ q := by
  induction q with
  | nil => intro w x hx; exact Or.inl hx
  | cons cb rest ih =>
    intro w x hx
    cases cb with
    | opInFlight t =>
      rw [runQueue_opInFlight] at hx
      rcases ih _ _ hx with h | h
      · exact Or.inl h
      · exact Or.inr (by simp [h])
    | member tok =>
      rw [runQueue_member] at hx
      rcases ih _ _ hx with h | h
      · simp only [List.mem_append, List.mem_singleton] at h
        rcases h with h | h
        · exact Or.inl h
        · exact Or.inr (by simp [h])
      · exact Or.inr (by simp [h])
    | flushRetry t b =>
      rcases runQueue_retry_exhaustive w t b rest with
        ⟨_, he⟩ | ⟨gbid, _, _, he⟩ | ⟨g, _, _, _, he⟩ | ⟨_, _, he⟩ <;> rw [he] at hx
      · rcases ih _ _ hx with h | h
        · exact Or.inl h
        · exact Or.inr (by simp [h])
      · exact Or.inl hx
      · exact Or.inl hx
      · exact Or.inl hx

/-- Every chain after an `appendToChain` refines a chain that was already
there: same tablet and batch identity, and its queue draws only from the
old queue and the appended callbacks. -/
theorem appendToChain_mem (l : List Chain) (bid : Nat) (cbs : List Cb) :
    ∀ c' ∈ appendToChain l bid cbs, ∃ c ∈ l,
      c'.tablet = c.tablet ∧ c'.bid = c.bid ∧
      (∀ x ∈ c'.queue, x ∈ c.queue ∨ x ∈ cbs) := by
  induction l with
  | nil => intro c' hc'; simp [appendToChain] at hc'
  | cons c rest ih =>
    intro c' hc'
    by_cases h : c.bid = bid
    · simp only [appendToChain, h, if_pos] at hc'
      rcases List.mem_cons.mp hc' with hc1 | hc1
      · subst hc1
        exact ⟨c, by simp, rfl, h.symm, by intro x hx; simpa using List.mem_append.mp hx⟩
      · exact ⟨c', List.mem_cons_of_mem _ hc1, rfl, rfl, fun x hx => Or.inl hx⟩
    · simp only [appendToChain, h, if_neg h] at hc'
      rcases List.mem_cons.mp hc' with hc1 | hc1
      · subst hc1; exact ⟨c', by simp, rfl, rfl, fun x hx => Or.inl hx⟩
      · rcases ih c' hc1 with ⟨c0, hc0, h1, h2, h3⟩
        exact ⟨c0, List.mem_cons_of_mem _ hc0, h1, h2, h3⟩

/-- `appendToChain` either drops the callbacks (no chain with that batch
identity) or extends exactly the first chain with that identity. -/
theorem appendToChain_cases (l : List Chain) (bid : Nat) (cbs : List Cb) :
    ((∀ c ∈ l, c.bid ≠ bid) ∧ appendToChain l bid cbs = l)
  ∨ (∃ l1 c l2, l = l1 ++ c :: l2 ∧ c.bid = bid ∧ (∀ c' ∈ l1, c'.bid ≠ bid) ∧
       appendToChain l bid cbs = l1 ++ ({ c with queue := c.queue ++ cbs } : Chain) :: l2) := by
  induction l with
  | nil => exact Or.inl ⟨by simp, rfl⟩
  | cons c rest ih =>
    by_cases h : c.bid = bid
    · exact Or.inr ⟨[], c, rest, by simp, h, by simp, by simp [appendToChain, h]⟩
    · rcases ih with ⟨hall, he⟩ | ⟨l1, c0, l2, hl, hbid, hl1, he⟩
      · refine Or.inl ⟨?_, by simp [appendToChain, h, he]⟩
        intro c' hc'
        rcases List.mem_cons.mp hc' with hc' | hc'
        · subst hc'; exact h
        · exact hall c' hc'
      · refine Or.inr ⟨c :: l1, c0, l2, by simp [hl], hbid, ?_, by simp [appendToChain, h, he]⟩
        intro c' hc'
        rcases List.mem_cons.mp hc' with hc' | hc'
        · subst hc'; exact h
        · exact hl1 c' hc'

/-- What `removeChain` removes: the first chain with the given identity;
everything else survives. -/
theorem removeChain_some (l : List Chain) (bid : Nat) (X : Chain)
    (h : (removeChain l bid).1 = some X) :
    X ∈ l ∧ X.bid = bid ∧ (∀ c ∈ (removeChain l bid).2, c ∈ l) ∧
      (∀ c ∈ l, c = X ∨ c ∈ (removeChain l bid).2) := by
  induction l with
  | nil => simp [removeChain] at h
  | cons c rest ih =>
    by_cases hc : c.bid = bid
    · simp only [removeChain, if_pos hc] at h ⊢
      injection h with h
      subst h
      exact ⟨by simp, hc, fun c hc' => List.mem_cons_of_mem _ hc',
        fun c' hc' => by rcases List.mem_cons.mp hc' with h | h
                         · exact Or.inl h
                         · exact Or.inr h⟩
    · simp only [removeChain, if_neg hc] at h ⊢
      rcases ih h with ⟨h1, h2, h3, h4⟩
      refine ⟨List.mem_cons_of_mem _ h1, h2, ?_, ?_⟩
      · intro c' hc'
        rcases List.mem_cons.mp hc' with h' | h'
        · subst h'; simp
        · exact List.mem_cons_of_mem _ (h3 c' h')
      · intro c' hc'
        rcases List.mem_cons.mp hc' with h' | h'
        · subst h'; exact Or.inr (by simp)
        · rcases h4 c' h' with h' | h'
          · exact Or.inl h'
          · exact Or.inr (List.mem_cons_of_mem _ h')

/-- What `removeOpChain` removes. -/
theorem removeOpChain_some (l : List OpChain) (oid : Nat) (X : OpChain)
    (h : (removeOpChain l oid).1 = some X) :
    X ∈ l ∧ X.oid = oid ∧ (∀ c ∈ (removeOpChain l oid).2, c ∈ l) ∧
      (∀ c ∈ l, c = X ∨ c ∈ (removeOpChain l oid).2) := by
  induction l with
  | nil => simp [removeOpChain] at h
  | cons c rest ih =>
    by_cases hc : c.oid = oid
    · simp only [removeOpChain, if_pos hc] at h ⊢
      injection h with h
      subst h
      exact ⟨by simp, hc, fun c hc' => List.mem_cons_of_mem _ hc',
        fun c' hc' => by rcases List.mem_cons.mp hc' with h | h
                         · exact Or.inl h
                         · exact Or.inr h⟩
    · simp only [removeOpChain, if_neg hc] at h ⊢
      rcases ih h with ⟨h1, h2, h3, h4⟩
      refine ⟨List.mem_cons_of_mem _ h1, h2, ?_, ?_⟩
      · intro c' hc'
        rcases List.mem_cons.mp hc' with h' | h'
        · subst h'; simp
        · exact List.mem_cons_of_mem _ (h3 c' h')
      · intro c' hc'
        rcases List.mem_cons.mp hc' with h' | h'
        · subst h'; exact Or.inr (by simp)
        · rcases h4 c' h' with h' | h'
          · exact Or.inl h'
          · exact Or.inr (List.mem_cons_of_mem _ h')

/-! Lemmas about `guardedQueue` and clean chains. -/

theorem guardedQueue_head_member (t : Nat) (b : Batch) (tok : Nat) (q : List Cb)
    (h : guardedQueue t b tok (Cb.member tok :: q)) : False := by
  have h2 := h [] q rfl
  simp at h2

theorem guardedQueue_tail (t : Nat) (b : Batch) (tok : Nat) (cb : Cb) (q : List Cb)
    (hcb : cb ≠ Cb.flushRetry t b)
    (h : guardedQueue t b tok (cb :: q)) : guardedQueue t b tok q := by
  intro q1 q2 heq
  have h2 := h (cb :: q1) q2 (by rw [heq]; rfl)
  rcases List.mem_cons.mp h2 with h3 | h3
  · exact absurd h3.symm hcb
  · exact h3

theorem guardedQueue_append_clean (t : Nat) (b : Batch) (tok : Nat)
    (q cbs : List Cb) (h : guardedQueue t b tok q)
    (hcbs : Cb.member tok ∉ cbs) :
    guardedQueue t b tok (q ++ cbs) := by
  intro q1 q2 heq
  rcases List.append_eq_append_iff.mp heq with ⟨a', h1, h2⟩ | ⟨c', h1, h2⟩
  · exact absurd (by rw [h2]; simp : Cb.member tok ∈ cbs) hcbs
  · cases c' with
    | nil =>
      simp only [List.nil_append] at h2
      exact absurd (by rw [← h2]; simp : Cb.member tok ∈ cbs) hcbs
    | cons x c'' =>
      injection h2 with hx _
      exact h q1 c'' (by rw [h1, ← hx])

theorem guardedQueue_pre_retry (t : Nat) (b : Batch) (tok : Nat)
    (pre rest : List Cb) (hpre : Cb.member tok ∉ pre) :
    guardedQueue t b tok (pre ++ Cb.flushRetry t b :: rest) := by
  intro q1 q2 heq
  rcases List.append_eq_append_iff.mp heq with ⟨a', h1, h2⟩ | ⟨c', h1, h2⟩
  · cases a' with
    | nil =>
      simp only [List.nil_append] at h2
      injection h2 with hx _
      exact Cb.noConfusion hx
    | cons x a'' =>
      injection h2 with hx _
      rw [h1, ← hx]
      simp
  · cases c' with
    | nil =>
      simp only [List.nil_append] at h2
      injection h2 with hx _
      exact Cb.noConfusion hx
    | cons x c'' =>
      injection h2 with hx _
      refine absurd ?_ hpre
      rw [h1, ← hx]
      simp

theorem guardedQueue_pre_guarded (t : Nat) (b : Batch) (tok : Nat)
    (pre rest : List Cb) (hpre : Cb.member tok ∉ pre)
    (h : guardedQueue t b tok rest) :
    guardedQueue t b tok (pre ++ rest) := by
  intro q1 q2 heq
  rcases List.append_eq_append_iff.mp heq with ⟨a', h1, h2⟩ | ⟨c', h1, h2⟩
  · have h3 := h a' q2 h2
    rw [h1]
    simp [h3]
  · cases c' with
    | nil =>
      simp only [List.nil_append] at h2
      have h3 := h [] q2 (by simpa using h2.symm)
      simp at h3
    | cons x c'' =>
      injection h2 with hx _
      refine absurd ?_ hpre
      rw [h1, ← hx]
      simp

/-- Extending a clean chain with clean callbacks keeps it clean. -/
theorem cleanFor_append (t : Nat) (b : Batch) (tok : Nat) (c : Chain)
    (cbs : List Cb) (hc : cleanFor t b tok c)
    (h1 : Cb.member tok ∉ cbs) (h2 : Cb.flushRetry t b ∉ cbs) :
    cleanFor t b tok ({ c with queue := c.queue ++ cbs } : Chain) := by
  constructor
  · intro hm
    rcases List.mem_append.mp hm with h | h
    · exact hc.1 h
    · exact h1 h
  · intro hm
    rcases List.mem_append.mp hm with h | h
    · exact hc.2 h
    · exact h2 h

/-- Appending clean callbacks keeps a fully clean chain list clean. -/
theorem appendToChain_clean (t : Nat) (b : Batch) (tok : Nat) (bid : Nat)
    (cbs : List Cb) (h1 : Cb.member tok ∉ cbs) (h2 : Cb.flushRetry t b ∉ cbs)
    (l : List Chain) (hl : ∀ c' ∈ l, cleanFor t b tok c') :
    ∀ c' ∈ appendToChain l bid cbs, cleanFor t b tok c' := by
  intro c' hc'
  rcases appendToChain_mem l bid cbs c' hc' with ⟨c0, hc0, _, _, hsub⟩
  constructor
  · intro hm
    rcases hsub _ hm with h | h
    · exact (hl c0 hc0).1 h
    · exact h1 h
  · intro hm
    rcases hsub _ hm with h | h
    · exact (hl c0 hc0).2 h
    · exact h2 h

/-- Appending clean callbacks to a chain list with one guarded chain and
clean sides preserves that shape. -/
theorem appendToChain_guard (t : Nat) (b : Batch) (tok : Nat) (bid : Nat)
    (cbs : List Cb) (h1 : Cb.member tok ∉ cbs) (h2 : Cb.flushRetry t b ∉ cbs) :
    ∀ (l1 : List Chain) (c : Chain) (l2 : List Chain),
      (∀ c' ∈ l1 ++ l2, cleanFor t b tok c') →
      guardedQueue t b tok c.queue →
      ∃ l1' c' l2', appendToChain (l1 ++ c :: l2) bid cbs = l1' ++ c' :: l2' ∧
        guardedQueue t b tok c'.queue ∧
        (∀ x ∈ l1' ++ l2', cleanFor t b tok x) := by
  intro l1
  induction l1 with
  | nil =>
    intro c l2 hsides hg
    by_cases h : c.bid = bid
    · refine ⟨[], { c with queue := c.queue ++ cbs }, l2,
        by simp [appendToChain, h], guardedQueue_append_clean t b tok _ _ hg h1, ?_⟩
      simpa using hsides
    · refine ⟨[], c, appendToChain l2 bid cbs, by simp [appendToChain, h], hg, ?_⟩
      intro x hx
      simp only [List.nil_append] at hx
      exact appendToChain_clean t b tok bid cbs h1 h2 l2 (by simpa using hsides) x hx
  | cons a l1' ih =>
    intro c l2 hsides hg
    have ha : cleanFor t b tok a := hsides a (by simp)
    have hsides' : ∀ c' ∈ l1' ++ l2, cleanFor t b tok c' := by
      intro c' hc'
      exact hsides c' (by simpa using Or.inr (by simpa using hc'))
    by_cases h : a.bid = bid
    · refine ⟨{ a with queue := a.queue ++ cbs } :: l1', c, l2,
        by simp [appendToChain, h], hg, ?_⟩
      intro x hx
      rcases List.mem_cons.mp hx with hx | hx
      · subst hx; exact cleanFor_append t b tok a cbs ha h1 h2
      · exact hsides' x hx
    · rcases ih c l2 hsides' hg with ⟨l1'', c', l2'', he, hg', hcl⟩
      refine ⟨a :: l1'', c', l2'', by simp [appendToChain, h, he], hg', ?_⟩
      intro x hx
      rcases List.mem_cons.mp hx with hx | hx
      · subst hx; exact ha
      · exact hcl x hx

/-- Removing a chain from a list with one distinguished chain and clean
sides: either the distinguished chain was removed (the rest is clean), or
a clean chain was removed and the distinguished one survives with clean
sides. -/
theorem removeChain_guard (t : Nat) (b : Batch) (tok : Nat) (bid : Nat) :
    ∀ (l1 : List Chain) (c : Chain) (l2 : List Chain) (X : Chain),
      (∀ c' ∈ l1 ++ l2, cleanFor t b tok c') →
      (removeChain (l1 ++ c :: l2) bid).1 = some X →
      (X = c ∧ ∀ c' ∈ (removeChain (l1 ++ c :: l2) bid).2, cleanFor t b tok c')
    ∨ (cleanFor t b tok X ∧ ∃ l1' l2',
        (removeChain (l1 ++ c :: l2) bid).2 = l1' ++ c :: l2' ∧
        ∀ c' ∈ l1' ++ l2', cleanFor t b tok c') := by
  intro l1
  induction l1 with
  | nil =>
    intro c l2 X hsides hX
    simp only [List.nil_append] at hX ⊢
    by_cases h : c.bid = bid
    · left
      simp only [removeChain, if_pos h] at hX ⊢
      injection hX with hX
      exact ⟨hX.symm, by simpa using hsides⟩
    · right
      simp only [removeChain, if_neg h] at hX ⊢
      rcases removeChain_some l2 bid X hX with ⟨hmem, _, hsub, _⟩
      refine ⟨hsides X (by simpa using hmem), [], (removeChain l2 bid).2, rfl, ?_⟩
      intro c' hc'
      simp only [List.nil_append] at hc'
      exact hsides c' (by simpa using hsub c' hc')
  | cons a l1' ih =>
    intro c l2 X hsides hX
    have ha : cleanFor t b tok a := hsides a (by simp)
    have hsides' : ∀ c' ∈ l1' ++ l2, cleanFor t b tok c' := by
      intro c' hc'
      exact hsides c' (by simpa using Or.inr (by simpa using hc'))
    by_cases h : a.bid = bid
    · right
      simp only [List.cons_append, removeChain, if_pos h] at hX ⊢
      injection hX with hX
      exact ⟨hX ▸ ha, l1', l2, rfl, hsides'⟩
    · simp only [List.cons_append, removeChain, if_neg h] at hX ⊢
      rcases ih c l2 X hsides' hX with ⟨hXc, hrest⟩ | ⟨hXcl, l1'', l2'', he, hcl⟩
      · left
        refine ⟨hXc, ?_⟩
        intro c' hc'
        rcases List.mem_cons.mp hc' with hc' | hc'
        · subst hc'; exact ha
        · exact hrest c' hc'
      · right
        refine ⟨hXcl, a :: l1'', l2'', by simp [he], ?_⟩
        intro c' hc'
        rcases List.mem_cons.mp hc' with hc' | hc'
        · subst hc'; exact ha
        · exact hcl c' hc'

/-! Run lemmas: how one callback-queue run affects each configuration. -/

theorem runQueue_tokFreeOps (tok : Nat) (q : List Cb) (w : World)
    (h : tokFreeOps w tok) : tokFreeOps (runQueue w q) tok := by
  intro oc hoc
  rw [runQueue_opChains] at hoc
  exact h oc hoc

theorem runQueue_opRetryFree (t : Nat) (b : Batch) (q : List Cb) (w : World)
    (h : ∀ oc ∈ w.opChains, Cb.flushRetry t b ∉ oc.queue) :
    ∀ oc ∈ (runQueue w q).opChains, Cb.flushRetry t b ∉ oc.queue := by
  intro oc hoc
  rw [runQueue_opChains] at hoc
  exact h oc hoc

/-- Running a queue that does not hold member `tok` cannot place `tok`
into any chain. -/
theorem runQueue_clean_chains (tok : Nat) (q : List Cb) :
    ∀ w : World, Cb.member tok ∉ q →
      (∀ c ∈ w.chains, Cb.member tok ∉ c.queue) →
      ∀ c ∈ (runQueue w q).chains, Cb.member tok ∉ c.queue := by
  induction q with
  | nil => intro w _ hch; exact hch
  | cons cb rest ih =>
    intro w hq hch
    have hqr : Cb.member tok ∉ rest := fun h => hq (List.mem_cons_of_mem _ h)
    cases cb with
    | opInFlight t => rw [runQueue_opInFlight]; exact ih _ hqr hch
    | member tk => rw [runQueue_member]; exact ih _ hqr hch
    | flushRetry t b =>
      rcases runQueue_retry_exhaustive w t b rest with
        ⟨_, he⟩ | ⟨gbid, _, _, he⟩ | ⟨g, _, _, _, he⟩ | ⟨_, _, he⟩ <;> rw [he]
      · exact ih _ hqr hch
      · intro c hc
        rcases appendToChain_mem _ _ _ c hc with ⟨c0, hc0, _, _, hsub⟩
        intro hm
        rcases hsub _ hm with h | h
        · exact hch c0 hc0 h
        · exact hq h
      · exact hch
      · intro c hc
        rcases List.mem_append.mp hc with h | h
        · exact hch c h
        · simp only [List.mem_singleton] at h
          subst h
          intro hm
          rcases List.mem_cons.mp hm with h | h
          · exact Cb.noConfusion h
          · exact hqr h

/-- Running a queue free of member `tok` preserves the own-chain
configuration. -/
theorem runQueue_own (b : Batch) (tok : Nat) (q : List Cb) :
    ∀ w : World, Cb.member tok ∉ q →
      confOwn w b tok → confOwn (runQueue w q) b tok := by
  induction q with
  | nil => intro w _ h; exact h
  | cons cb rest ih =>
    intro w hq hco
    have hqr : Cb.member tok ∉ rest := fun h => hq (List.mem_cons_of_mem _ h)
    cases cb with
    | opInFlight t => rw [runQueue_opInFlight]; exact ih _ hqr ⟨hco.1, hco.2⟩
    | member tk => rw [runQueue_member]; exact ih _ hqr ⟨hco.1, hco.2⟩
    | flushRetry t b' =>
      rcases runQueue_retry_exhaustive w t b' rest with
        ⟨_, he⟩ | ⟨gbid, _, _, he⟩ | ⟨g, _, _, _, he⟩ | ⟨_, _, he⟩ <;> rw [he]
      · exact ih _ hqr ⟨hco.1, hco.2⟩
      · refine ⟨hco.1, ?_⟩
        intro c hc hm
        rcases appendToChain_mem _ _ _ c hc with ⟨c0, hc0, _, hbid, hsub⟩
        rcases hsub _ hm with h | h
        · exact hbid ▸ hco.2 c0 hc0 h
        · exact absurd h hq
      · exact hco
      · refine ⟨hco.1, ?_⟩
        intro c hc hm
        rcases List.mem_append.mp hc with h | h
        · exact hco.2 c h hm
        · simp only [List.mem_singleton] at h
          subst h
          rcases List.mem_cons.mp hm with h | h
          · exact Cb.noConfusion h
          · exact absurd h hqr

/-- Running a queue free of both member `tok` and the retry for `(t, b)`
preserves the guarded configuration. -/
theorem runQueue_guard_clean (t : Nat) (b : Batch) (tok : Nat) (q : List Cb) :
    ∀ w : World,
      Cb.member tok ∉ q → Cb.flushRetry t b ∉ q →
      confGuarded w t b tok →
      confGuarded (runQueue w q) t b tok := by
  induction q with
  | nil => intro w _ _ h; exact h
  | cons cb rest ih =>
    intro w hq1 hq2 hcg
    have hq1r : Cb.member tok ∉ rest := fun h => hq1 (List.mem_cons_of_mem _ h)
    have hq2r : Cb.flushRetry t b ∉ rest := fun h => hq2 (List.mem_cons_of_mem _ h)
    obtain ⟨hacc, hops, hopr, l1, c, l2, hsplit, hguard, hsides⟩ := hcg
    cases cb with
    | opInFlight t' =>
      rw [runQueue_opInFlight]
      exact ih _ hq1r hq2r ⟨hacc, hops, hopr, l1, c, l2, hsplit, hguard, hsides⟩
    | member tk =>
      rw [runQueue_member]
      exact ih _ hq1r hq2r ⟨hacc, hops, hopr, l1, c, l2, hsplit, hguard, hsides⟩
    | flushRetry t' b' =>
      have hne : ¬(t' = t ∧ b' = b) := by
        rintro ⟨h1, h2⟩
        subst h1; subst h2
        exact hq2 (by simp)
      have hcbs1 : Cb.member tok ∉ Cb.flushRetry t' b' :: rest := by
        intro h
        rcases List.mem_cons.mp h with h | h
        · exact Cb.noConfusion h
        · exact hq1r h
      have hcbs2 : Cb.flushRetry t b ∉ Cb.flushRetry t' b' :: rest := hq2
      rcases runQueue_retry_exhaustive w t' b' rest with
        ⟨_, he⟩ | ⟨gbid, hacc', hinf, he⟩ | ⟨g, _, _, _, he⟩ | ⟨hacc', hinf, he⟩
      · rw [he]
        exact ih _ hq1r hq2r ⟨hacc, hops, hopr, l1, c, l2, hsplit, hguard, hsides⟩
      · rw [he]
        refine ⟨hacc, hops, hopr, ?_⟩
        rw [hsplit]
        rcases appendToChain_guard t b tok gbid _ hcbs1 hcbs2 l1 c l2 hsides hguard with
          ⟨l1', c', l2', he2, hg', hcl⟩
        exact ⟨l1', c', l2', he2, hg', hcl⟩
      · rw [he]
        exact ⟨hacc, hops, hopr, l1, c, l2, hsplit, hguard, hsides⟩
      · rw [he]
        have ht' : t' ≠ t := by
          intro h
          subst h
          rw [hacc'] at hacc
          injection hacc with h2
          exact hne ⟨rfl, h2⟩
        refine ⟨by simpa [aget_aremoveGet_ne _ _ _ ht'] using hacc, hops, hopr, ?_⟩
        refine ⟨l1, c, l2 ++ [⟨t', b'.bid, Cb.opInFlight t' :: rest⟩],
          by rw [hsplit]; simp, hguard, ?_⟩
        intro x hx
        rcases List.mem_append.mp hx with hx | hx
        · exact hsides x (by simp [hx])
        · rcases List.mem_append.mp hx with hx | hx
          · exact hsides x (by simp [hx])
          · simp only [List.mem_singleton] at hx
            subst hx
            constructor
            · intro hm
              rcases List.mem_cons.mp hm with h | h
              · exact Cb.noConfusion h
              · exact hq1r h
            · intro hm
              rcases List.mem_cons.mp hm with h | h
              · exact Cb.noConfusion h
              · exact hq2r h

/-- Running the guarded queue itself (its parent chain has completed):
member `tok` is not delivered during the run, and the world ends in one of
the three safe configurations. -/
theorem runQueue_guard_run (t : Nat) (b : Batch) (tok : Nat) (q : List Cb) :
    ∀ w : World,
      guardedQueue t b tok q →
      aget w.sess.operations t = some b →
      (∀ c ∈ w.chains, cleanFor t b tok c) →
      tokFreeOps w tok →
      (∀ oc ∈ w.opChains, Cb.flushRetry t b ∉ oc.queue) →
      (tok ∉ w.delivered → tok ∉ (runQueue w q).delivered) ∧
      (confOwn (runQueue w q) b tok ∨ confGuarded (runQueue w q) t b tok ∨
        confNone (runQueue w q) tok) := by
  induction q with
  | nil =>
    intro w _ _ hclean hops _
    exact ⟨fun h => h, Or.inr (Or.inr ⟨hops, fun c hc => (hclean c hc).1⟩)⟩
  | cons cb rest ih =>
    intro w hguard hacc hclean hops hopr
    cases cb with
    | opInFlight t' =>
      rw [runQueue_opInFlight]
      exact ih { w with sess := opInFlightCallbackCall w.sess t' }
        (guardedQueue_tail t b tok _ _ (fun h => Cb.noConfusion h) hguard)
        hacc hclean hops hopr
    | member tk =>
      by_cases htk : tk = tok
      · rw [htk] at hguard
        exact absurd hguard (guardedQueue_head_member t b tok rest)
      · rw [runQueue_member]
        have hres := ih { w with delivered := w.delivered ++ [tk] }
          (guardedQueue_tail t b tok _ _ (fun h => Cb.noConfusion h) hguard)
          hacc hclean hops hopr
        refine ⟨fun hdel => hres.1 ?_, hres.2⟩
        simp only [List.mem_append, List.mem_singleton]
        rintro (h | h)
        · exact hdel h
        · exact htk h.symm
    | flushRetry t' b' =>
      by_cases hx : t' = t ∧ b' = b
      · obtain ⟨h1, h2⟩ := hx
        subst h1; subst h2
        rcases runQueue_retry_exhaustive w t' b' rest with
          ⟨hnacc, he⟩ | ⟨gbid, hacc', hinf, he⟩ | ⟨g, _, _, _, he⟩ | ⟨hacc', hinf, he⟩
        · exact absurd hacc hnacc
        · rw [he]
          refine ⟨fun h => h, ?_⟩
          rcases appendToChain_cases w.chains gbid (Cb.flushRetry t' b' :: rest) with
            ⟨_, he2⟩ | ⟨l1, c0, l2, hl, hbid, _, he2⟩
          · rw [he2]
            exact Or.inr (Or.inr ⟨hops, fun c hc => (hclean c hc).1⟩)
          · rw [he2]
            refine Or.inr (Or.inl ⟨hacc, hops, hopr, l1, _, l2, rfl, ?_, ?_⟩)
            · exact guardedQueue_pre_retry t' b' tok _ rest
                (hclean c0 (by rw [hl]; simp)).1
            · intro x hx2
              refine hclean x ?_
              rw [hl]
              rcases List.mem_append.mp hx2 with h | h
              · simp [h]
              · simp [h]
        · rw [he]
          exact ⟨fun h => h, Or.inr (Or.inr ⟨hops, fun c hc => (hclean c hc).1⟩)⟩
        · rw [he]
          refine ⟨fun h => h, Or.inl ⟨hops, ?_⟩⟩
          intro c hc hm
          rcases List.mem_append.mp hc with h | h
          · exact absurd hm ((hclean c h).1)
          · simp only [List.mem_singleton] at h
            subst h
            rfl
      · have hretry_ne : Cb.flushRetry t' b' ≠ Cb.flushRetry t b := by
          intro h
          injection h with ha hb
          exact hx ⟨ha, hb⟩
        have hguard_rest : guardedQueue t b tok rest :=
          guardedQueue_tail t b tok _ _ hretry_ne hguard
        rcases runQueue_retry_exhaustive w t' b' rest with
          ⟨_, he⟩ | ⟨gbid, hacc', hinf, he⟩ | ⟨g, _, _, _, he⟩ | ⟨hacc', hinf, he⟩
        · rw [he]
          exact ih _ hguard_rest hacc hclean hops hopr
        · rw [he]
          refine ⟨fun h => h, ?_⟩
          rcases appendToChain_cases w.chains gbid (Cb.flushRetry t' b' :: rest) with
            ⟨_, he2⟩ | ⟨l1, c0, l2, hl, hbid, _, he2⟩
          · rw [he2]
            exact Or.inr (Or.inr ⟨hops, fun c hc => (hclean c hc).1⟩)
          · rw [he2]
            refine Or.inr (Or.inl ⟨hacc, hops, hopr, l1, _, l2, rfl, ?_, ?_⟩)
            · have hpre : Cb.member tok ∉ c0.queue ++ [Cb.flushRetry t' b'] := by
                intro h
                rcases List.mem_append.mp h with h | h
                · exact (hclean c0 (by rw [hl]; simp)).1 h
                · simp only [List.mem_singleton] at h
                  exact Cb.noConfusion h
              have := guardedQueue_pre_guarded t b tok
                (c0.queue ++ [Cb.flushRetry t' b']) rest hpre hguard_rest
              simpa using this
            · intro x hx2
              refine hclean x ?_
              rw [hl]
              rcases List.mem_append.mp hx2 with h | h
              · simp [h]
              · simp [h]
        · rw [he]
          exact ⟨fun h => h, Or.inr (Or.inr ⟨hops, fun c hc => (hclean c hc).1⟩)⟩
        · rw [he]
          have ht' : t' ≠ t := by
            intro h
            subst h
            rw [hacc'] at hacc
            injection hacc with h2
            exact hx ⟨rfl, h2⟩
          refine ⟨fun h => h, ?_⟩
          refine Or.inr (Or.inl ⟨by simpa [aget_aremoveGet_ne _ _ _ ht'] using hacc,
            hops, hopr, w.chains, ⟨t', b'.bid, Cb.opInFlight t' :: rest⟩, [],
            by simp, ?_, ?_⟩)
          · have hpre : Cb.member tok ∉ [Cb.opInFlight t'] := by
              intro h
              simp only [List.mem_singleton] at h
              exact Cb.noConfusion h
            have := guardedQueue_pre_guarded t b tok [Cb.opInFlight t'] rest hpre hguard_rest
            simpa using this
          · intro x hx2
            exact hclean x (by simpa using hx2)

/-! Step preservation of the completion invariants. -/

theorem completeBatch_none (w : World) (bid : Nat)
    (h : (removeChain w.chains bid).1 = none) : completeBatch w bid = w := by
  have h2 : removeChain w.chains bid = (none, (removeChain w.chains bid).2) :=
    Prod.ext h rfl
  unfold completeBatch
  rw [h2]

theorem completeBatch_some (w : World) (bid : Nat) (X : Chain)
    (h : (removeChain w.chains bid).1 = some X) :
    completeBatch w bid =
      runQueue { w with chains := (removeChain w.chains bid).2
                        completedBatches := w.completedBatches ++ [bid] } X.queue := by
  have h2 : removeChain w.chains bid = (some X, (removeChain w.chains bid).2) :=
    Prod.ext h rfl
  unfold completeBatch
  rw [h2]

theorem completeOp_none (w : World) (oid : Nat)
    (h : (removeOpChain w.opChains oid).1 = none) : completeOp w oid = w := by
  have h2 : removeOpChain w.opChains oid = (none, (removeOpChain w.opChains oid).2) :=
    Prod.ext h rfl
  unfold completeOp
  rw [h2]

theorem completeOp_some (w : World) (oid : Nat) (X : OpChain)
    (h : (removeOpChain w.opChains oid).1 = some X) :
    completeOp w oid =
      runQueue { w with opChains := (removeOpChain w.opChains oid).2
                        completedOps := w.completedOps ++ [oid] } X.queue := by
  have h2 : removeOpChain w.opChains oid = (some X, (removeOpChain w.opChains oid).2) :=
    Prod.ext h rfl
  unfold completeOp
  rw [h2]

/-- A batch-completion event preserves the batch-token invariant. -/
theorem batchTokInv_completeBatch (t : Nat) (b : Batch) (tok : Nat) (w : World)
    (bid : Nat) (hinv : BatchTokInv t b tok w) :
    BatchTokInv t b tok (completeBatch w bid) := by
  obtain ⟨hgoal, hdisj⟩ := hinv
  rcases hX : (removeChain w.chains bid).1 with _ | X
  · rw [completeBatch_none _ _ hX]; exact ⟨hgoal, hdisj⟩
  · rw [completeBatch_some _ _ _ hX]
    obtain ⟨hXmem, hXbid, hsub, hall⟩ := removeChain_some w.chains bid X hX
    by_cases hbb : bid = b.bid
    · have hcb : b.bid ∈ (runQueue
          { w with chains := (removeChain w.chains bid).2
                   completedBatches := w.completedBatches ++ [bid] } X.queue).completedBatches := by
        rw [runQueue_completedBatches]
        simp [hbb]
      exact ⟨fun _ => hcb, Or.inl hcb⟩
    · rcases hdisj with hcompleted | ⟨hund, hconf⟩
      · have hcb : b.bid ∈ (runQueue
            { w with chains := (removeChain w.chains bid).2
                     completedBatches := w.completedBatches ++ [bid] } X.queue).completedBatches := by
          rw [runQueue_completedBatches]
          simp [hcompleted]
        exact ⟨fun _ => hcb, Or.inl hcb⟩
      · rcases hconf with hown | hguard | hnone
        · -- own configuration: the removed chain is not b's, so its queue is
          -- free of the member
          have hXfree : Cb.member tok ∉ X.queue := by
            intro hm
            exact hbb (hXbid ▸ hown.2 X hXmem hm)
          have hconf1 : confOwn
              { w with chains := (removeChain w.chains bid).2
                       completedBatches := w.completedBatches ++ [bid] } b tok :=
            ⟨hown.1, fun c hc hm => hown.2 c (hsub c hc) hm⟩
          have hB := runQueue_own b tok X.queue _ hXfree hconf1
          have hnd : tok ∉ (runQueue
              { w with chains := (removeChain w.chains bid).2
                       completedBatches := w.completedBatches ++ [bid] } X.queue).delivered := by
            intro hdel
            rcases runQueue_delivered_new X.queue _ tok hdel with h | h
            · exact hund h
            · exact hXfree h
          exact ⟨fun hdel => absurd hdel hnd, Or.inr ⟨hnd, Or.inl hB⟩⟩
        · obtain ⟨hacc, hops, hopr, l1, c, l2, hsplit, hg, hsides⟩ := hguard
          rw [hsplit] at hX
          have hrw : (removeChain w.chains bid).2 = (removeChain (l1 ++ c :: l2) bid).2 := by
            rw [hsplit]
          rcases removeChain_guard t b tok bid l1 c l2 X hsides hX with
            ⟨hXc, hrest⟩ | ⟨hXcl, l1', l2', he2, hcl⟩
          · -- the guarded chain itself completed: run its queue
            have hrun := runQueue_guard_run t b tok X.queue
              { w with chains := (removeChain w.chains bid).2
                       completedBatches := w.completedBatches ++ [bid] }
              (hXc ▸ hg) hacc
              (by intro c' hc'
                  refine hrest c' ?_
                  rw [← hrw]
                  exact hc')
              hops hopr
            exact ⟨fun hdel => absurd hdel (hrun.1 hund), Or.inr ⟨hrun.1 hund, hrun.2⟩⟩
          · -- a clean chain completed: clean run preserves the guarded shape
            have hconf1 : confGuarded
                { w with chains := (removeChain w.chains bid).2
                         completedBatches := w.completedBatches ++ [bid] } t b tok :=
              ⟨hacc, hops, hopr, l1', c, l2', by rw [hrw, he2], hg, hcl⟩
            have hC := runQueue_guard_clean t b tok X.queue _ hXcl.1 hXcl.2 hconf1
            have hnd : tok ∉ (runQueue
                { w with chains := (removeChain w.chains bid).2
                         completedBatches := w.completedBatches ++ [bid] } X.queue).delivered := by
              intro hdel
              rcases runQueue_delivered_new X.queue _ tok hdel with h | h
              · exact hund h
              · exact hXcl.1 h
            exact ⟨fun hdel => absurd hdel hnd, Or.inr ⟨hnd, Or.inr (Or.inl hC)⟩⟩
        · -- nowhere configuration
          have hXfree : Cb.member tok ∉ X.queue := hnone.2 X hXmem
          have hcl := runQueue_clean_chains tok X.queue
            { w with chains := (removeChain w.chains bid).2
                     completedBatches := w.completedBatches ++ [bid] }
            hXfree (fun c hc => hnone.2 c (hsub c hc))
          have hnd : tok ∉ (runQueue
              { w with chains := (removeChain w.chains bid).2
                       completedBatches := w.completedBatches ++ [bid] } X.queue).delivered := by
            intro hdel
            rcases runQueue_delivered_new X.queue _ tok hdel with h | h
            · exact hund h
            · exact hXfree h
          refine ⟨fun hdel => absurd hdel hnd, Or.inr ⟨hnd, Or.inr (Or.inr ⟨?_, hcl⟩)⟩⟩
          exact runQueue_tokFreeOps tok X.queue _ hnone.1

/-- An operation-completion event preserves the batch-token invariant. -/
theorem batchTokInv_completeOp (t : Nat) (b : Batch) (tok : Nat) (w : World)
    (oid : Nat) (hinv : BatchTokInv t b tok w) :
    BatchTokInv t b tok (completeOp w oid) := by
  obtain ⟨hgoal, hdisj⟩ := hinv
  rcases hX : (removeOpChain w.opChains oid).1 with _ | X
  · rw [completeOp_none _ _ hX]; exact ⟨hgoal, hdisj⟩
  · rw [completeOp_some _ _ _ hX]
    obtain ⟨hXmem, hXoid, hsub, hall⟩ := removeOpChain_some w.opChains oid X hX
    rcases hdisj with hcompleted | ⟨hund, hconf⟩
    · have hcb : b.bid ∈ (runQueue
          { w with opChains := (removeOpChain w.opChains oid).2
                   completedOps := w.completedOps ++ [oid] } X.queue).completedBatches := by
        rw [runQueue_completedBatches]
        exact hcompleted
      exact ⟨fun _ => hcb, Or.inl hcb⟩
    · rcases hconf with hown | hguard | hnone
      · have hXfree : Cb.member tok ∉ X.queue := hown.1 X hXmem
        have hconf1 : confOwn
            { w with opChains := (removeOpChain w.opChains oid).2
                     completedOps := w.completedOps ++ [oid] } b tok :=
          ⟨fun oc hoc => hown.1 oc (hsub oc hoc), hown.2⟩
        have hB := runQueue_own b tok X.queue _ hXfree hconf1
        have hnd : tok ∉ (runQueue
            { w with opChains := (removeOpChain w.opChains oid).2
                     completedOps := w.completedOps ++ [oid] } X.queue).delivered := by
          intro hdel
          rcases runQueue_delivered_new X.queue _ tok hdel with h | h
          · exact hund h
          · exact hXfree h
        exact ⟨fun hdel => absurd hdel hnd, Or.inr ⟨hnd, Or.inl hB⟩⟩
      · obtain ⟨hacc, hops, hopr, l1, c, l2, hsplit, hg, hsides⟩ := hguard
        have hXfree : Cb.member tok ∉ X.queue := hops X hXmem
        have hXrfree : Cb.flushRetry t b ∉ X.queue := hopr X hXmem
        have hconf1 : confGuarded
            { w with opChains := (removeOpChain w.opChains oid).2
                     completedOps := w.completedOps ++ [oid] } t b tok :=
          ⟨hacc, fun oc hoc => hops oc (hsub oc hoc),
            fun oc hoc => hopr oc (hsub oc hoc), l1, c, l2, hsplit, hg, hsides⟩
        have hC := runQueue_guard_clean t b tok X.queue _ hXfree hXrfree hconf1
        have hnd : tok ∉ (runQueue
            { w with opChains := (removeOpChain w.opChains oid).2
                     completedOps := w.completedOps ++ [oid] } X.queue).delivered := by
          intro hdel
          rcases runQueue_delivered_new X.queue _ tok hdel with h | h
          · exact hund h
          · exact hXfree h
        exact ⟨fun hdel => absurd hdel hnd, Or.inr ⟨hnd, Or.inr (Or.inl hC)⟩⟩
      · have hXfree : Cb.member tok ∉ X.queue := hnone.1 X hXmem
        have hcl := runQueue_clean_chains tok X.queue
          { w with opChains := (removeOpChain w.opChains oid).2
                   completedOps := w.completedOps ++ [oid] }
          hXfree hnone.2
        have hnd : tok ∉ (runQueue
            { w with opChains := (removeOpChain w.opChains oid).2
                     completedOps := w.completedOps ++ [oid] } X.queue).delivered := by
          intro hdel
          rcases runQueue_delivered_new X.queue _ tok hdel with h | h
          · exact hund h
          · exact hXfree h
        refine ⟨fun hdel => absurd hdel hnd, Or.inr ⟨hnd, Or.inr (Or.inr ⟨?_, hcl⟩)⟩⟩
        intro oc hoc
        rw [runQueue_opChains] at hoc
        exact hnone.1 oc (hsub oc hoc)

/-- Any dispatcher event preserves the batch-token invariant. -/
theorem batchTokInv_step (t : Nat) (b : Batch) (tok : Nat) (w w' : World)
    (hstep : WStep w w') (hinv : BatchTokInv t b tok w) :
    BatchTokInv t b tok w' := by
  cases hstep with
  | batch bid => exact batchTokInv_completeBatch t b tok w bid hinv
  | op oid => exact batchTokInv_completeOp t b tok w oid hinv

/-- Any dispatcher event preserves the operation-token invariant. -/
theorem opTokInv_step (oid0 : Nat) (tok : Nat) (w w' : World)
    (hstep : WStep w w') (hinv : OpTokInv oid0 tok w) :
    OpTokInv oid0 tok w' := by
  obtain ⟨hgoal, hdisj⟩ := hinv
  cases hstep with
  | batch bid =>
    rcases hX : (removeChain w.chains bid).1 with _ | X
    · rw [completeBatch_none _ _ hX]; exact ⟨hgoal, hdisj⟩
    · rw [completeBatch_some _ _ _ hX]
      obtain ⟨hXmem, hXbid, hsub, hall⟩ := removeChain_some w.chains bid X hX
      rcases hdisj with hcompleted | ⟨hund, hchfree, hopown⟩
      · have hc : oid0 ∈ (runQueue
            { w with chains := (removeChain w.chains bid).2
                     completedBatches := w.completedBatches ++ [bid] } X.queue).completedOps := by
          rw [runQueue_completedOps]
          exact hcompleted
        exact ⟨fun _ => hc, Or.inl hc⟩
      · have hXfree : Cb.member tok ∉ X.queue := hchfree X hXmem
        have hcl := runQueue_clean_chains tok X.queue
          { w with chains := (removeChain w.chains bid).2
                   completedBatches := w.completedBatches ++ [bid] }
          hXfree (fun c hc => hchfree c (hsub c hc))
        have hnd : tok ∉ (runQueue
            { w with chains := (removeChain w.chains bid).2
                     completedBatches := w.completedBatches ++ [bid] } X.queue).delivered := by
          intro hdel
          rcases runQueue_delivered_new X.queue _ tok hdel with h | h
          · exact hund h
          · exact hXfree h
        refine ⟨fun hdel => absurd hdel hnd, Or.inr ⟨hnd, hcl, ?_⟩⟩
        intro oc hoc
        rw [runQueue_opChains] at hoc
        exact hopown oc hoc
  | op oid =>
    rcases hX : (removeOpChain w.opChains oid).1 with _ | X
    · rw [completeOp_none _ _ hX]; exact ⟨hgoal, hdisj⟩
    · rw [completeOp_some _ _ _ hX]
      obtain ⟨hXmem, hXoid, hsub, hall⟩ := removeOpChain_some w.opChains oid X hX
      rcases hdisj with hcompleted | ⟨hund, hchfree, hopown⟩
      · have hc : oid0 ∈ (runQueue
            { w with opChains := (removeOpChain w.opChains oid).2
                     completedOps := w.completedOps ++ [oid] } X.queue).completedOps := by
          rw [runQueue_completedOps]
          simp [hcompleted]
        exact ⟨fun _ => hc, Or.inl hc⟩
      · by_cases hme : Cb.member tok ∈ X.queue
        · -- the removed op chain holds the member, so it is oid0's chain and
          -- its completion is recorded before the run
          have hXo : X.oid = oid0 := hopown X hXmem hme
          have hc : oid0 ∈ (runQueue
              { w with opChains := (removeOpChain w.opChains oid).2
                       completedOps := w.completedOps ++ [oid] } X.queue).completedOps := by
            rw [runQueue_completedOps]
            simp [← hXo, hXoid]
          exact ⟨fun _ => hc, Or.inl hc⟩
        · have hcl := runQueue_clean_chains tok X.queue
            { w with opChains := (removeOpChain w.opChains oid).2
                     completedOps := w.completedOps ++ [oid] }
            hme hchfree
          have hnd : tok ∉ (runQueue
              { w with opChains := (removeOpChain w.opChains oid).2
                       completedOps := w.completedOps ++ [oid] } X.queue).delivered := by
            intro hdel
            rcases runQueue_delivered_new X.queue _ tok hdel with h | h
            · exact hund h
            · exact hme h
          refine ⟨fun hdel => absurd hdel hnd, Or.inr ⟨hnd, hcl, ?_⟩⟩
          intro oc hoc
          rw [runQueue_opChains] at hoc
          exact hopown oc (hsub oc hoc)

/-- Invariants hold along every event trace. -/
theorem wsteps_preserve {P : World → Prop}
    (hstep : ∀ a b : World, P a → WStep a b → P b) :
    ∀ {a b : World}, WSteps a b → P a → P b := by
  intro a b hs
  induction hs with
  | refl => exact fun h => h
  | tail hs' hstep' ih => exact fun h => hstep _ _ (ih h) hstep'

/-! Facts about the post-flush world construction. -/

theorem flushTablet_inflight_isSome (s : SessionState) (t' : Nat) (b' : Batch)
    (t : Nat) (h : (aget s.operationsInFlight t).isSome) :
    (aget (flushTablet s t' b').1.operationsInFlight t).isSome := by
  by_cases hacc : aget s.operations t' = some b'
  · cases hg : aget s.operationsInFlight t' with
    | some g => rw [flushTablet_blocked s t' b' g hacc hg]; exact h
    | none =>
      rw [flushTablet_dispatch s t' b' hacc hg]
      by_cases ht : t' = t
      · subst ht
        simp [aget_aput_self]
      · simpa [aget_aput_ne _ _ _ _ ht] using h
  · rw [flushTablet_not_expected s t' b' hacc]; exact h

theorem installBatch_nil (w : World) (tokBase : Nat) :
    installBatchMembers w tokBase [] = w := rfl

theorem installBatch_noop (w : World) (tokBase : Nat) (t : Nat) (b : Batch)
    (rest : List (Nat × Batch)) (h : aget w.sess.operations t ≠ some b) :
    installBatchMembers w tokBase ((t, b) :: rest) =
      installBatchMembers w (tokBase + 1) rest := by
  have hr : flushTablet w.sess t b = (w.sess, Fut.fromResult, {}) :=
    flushTablet_not_expected w.sess t b h
  simp [installBatchMembers, hr]

theorem installBatch_blocked (w : World) (tokBase : Nat) (t : Nat) (b : Batch)
    (rest : List (Nat × Batch)) (gbid : Nat)
    (hb : aget w.sess.operations t = some b)
    (hg : aget w.sess.operationsInFlight t = some (Fut.batchDeferred gbid)) :
    installBatchMembers w tokBase ((t, b) :: rest) =
      installBatchMembers
        { w with chains :=
            (appendToChain w.chains gbid [Cb.flushRetry t b, Cb.member tokBase]) }
        (tokBase + 1) rest := by
  have hr : flushTablet w.sess t b =
      (w.sess, .chainedFlushRetry (Fut.batchDeferred gbid) t b, {}) :=
    flushTablet_blocked w.sess t b _ hb hg
  simp [installBatchMembers, hr]

theorem installBatch_blocked_other (w : World) (tokBase : Nat) (t : Nat) (b : Batch)
    (rest : List (Nat × Batch)) (g : Fut)
    (hb : aget w.sess.operations t = some b)
    (hg : aget w.sess.operationsInFlight t = some g)
    (hshape : ∀ gbid, g ≠ Fut.batchDeferred gbid) :
    installBatchMembers w tokBase ((t, b) :: rest) =
      installBatchMembers w (tokBase + 1) rest := by
  have hr : flushTablet w.sess t b = (w.sess, .chainedFlushRetry g t b, {}) :=
    flushTablet_blocked w.sess t b g hb hg
  cases g with
  | batchDeferred gbid => exact absurd rfl (hshape gbid)
  | fromResult => simp [installBatchMembers, hr]
  | opDeferred _ => simp [installBatchMembers, hr]
  | chainedFlushRetry _ _ _ => simp [installBatchMembers, hr]
  | chainedRetryRpc _ _ => simp [installBatchMembers, hr]
  | locate _ _ => simp [installBatchMembers, hr]
  | waitCreate _ => simp [installBatchMembers, hr]
  | group _ => simp [installBatchMembers, hr]

theorem installBatch_dispatch (w : World) (tokBase : Nat) (t : Nat) (b : Batch)
    (rest : List (Nat × Batch))
    (hb : aget w.sess.operations t = some b)
    (hg : aget w.sess.operationsInFlight t = none) :
    installBatchMembers w tokBase ((t, b) :: rest) =
      installBatchMembers
        { w with
            sess := { w.sess with
              operations := (aremoveGet w.sess.operations t).2
              operationsInFlight :=
                aput w.sess.operationsInFlight t (Fut.batchDeferred b.bid) }
            chains := w.chains ++ [⟨t, b.bid, [Cb.opInFlight t, Cb.member tokBase]⟩] }
        (tokBase + 1) rest := by
  have hr := flushTablet_dispatch w.sess t b hb hg
  simp [installBatchMembers, hr]

/-- Exhaustive description of one install step. -/
theorem installBatch_exhaustive (w : World) (tokBase : Nat) (t : Nat) (b : Batch)
    (rest : List (Nat × Batch)) :
    (installBatchMembers w tokBase ((t, b) :: rest) =
        installBatchMembers w (tokBase + 1) rest)
  ∨ (∃ gbid, aget w.sess.operations t = some b ∧
       aget w.sess.operationsInFlight t = some (Fut.batchDeferred gbid) ∧
       installBatchMembers w tokBase ((t, b) :: rest) =
         installBatchMembers
           { w with chains :=
               (appendToChain w.chains gbid [Cb.flushRetry t b, Cb.member tokBase]) }
           (tokBase + 1) rest)
  ∨ (aget w.sess.operations t = some b ∧
       aget w.sess.operationsInFlight t = none ∧
       installBatchMembers w tokBase ((t, b) :: rest) =
         installBatchMembers
           { w with
               sess := { w.sess with
                 operations := (aremoveGet w.sess.operations t).2
                 operationsInFlight :=
                   aput w.sess.operationsInFlight t (Fut.batchDeferred b.bid) }
               chains := w.chains ++ [⟨t, b.bid, [Cb.opInFlight t, Cb.member tokBase]⟩] }
           (tokBase + 1) rest) := by
  by_cases hacc : aget w.sess.operations t = some b
  · cases hg : aget w.sess.operationsInFlight t with
    | some g =>
      cases g with
      | batchDeferred gbid =>
        exact Or.inr (Or.inl ⟨gbid, hacc, rfl,
          installBatch_blocked w tokBase t b rest gbid hacc hg⟩)
      | fromResult =>
        exact Or.inl (installBatch_blocked_other w tokBase t b rest _ hacc hg
          (fun gbid h => Fut.noConfusion h))
      | opDeferred _ =>
        exact Or.inl (installBatch_blocked_other w tokBase t b rest _ hacc hg
          (fun gbid h => Fut.noConfusion h))
      | chainedFlushRetry _ _ _ =>
        exact Or.inl (installBatch_blocked_other w tokBase t b rest _ hacc hg
          (fun gbid h => Fut.noConfusion h))
      | chainedRetryRpc _ _ =>
        exact Or.inl (installBatch_blocked_other w tokBase t b rest _ hacc hg
          (fun gbid h => Fut.noConfusion h))
      | locate _ _ =>
        exact Or.inl (installBatch_blocked_other w tokBase t b rest _ hacc hg
          (fun gbid h => Fut.noConfusion h))
      | waitCreate _ =>
        exact Or.inl (installBatch_blocked_other w tokBase t b rest _ hacc hg
          (fun gbid h => Fut.noConfusion h))
      | group _ =>
        exact Or.inl (installBatch_blocked_other w tokBase t b rest _ hacc hg
          (fun gbid h => Fut.noConfusion h))
    | none =>
      exact Or.inr (Or.inr ⟨hacc, rfl, installBatch_dispatch w tokBase t b rest hacc hg⟩)
  · exact Or.inl (installBatch_noop w tokBase t b rest hacc)

/-- `installBatchMembers` never touches op chains, completions or
deliveries. -/
theorem installBatch_components (l : List (Nat × Batch)) :
    ∀ (w : World) (tokBase : Nat),
      (installBatchMembers w tokBase l).opChains = w.opChains ∧
      (installBatchMembers w tokBase l).completedBatches = w.completedBatches ∧
      (installBatchMembers w tokBase l).completedOps = w.completedOps ∧
      (installBatchMembers w tokBase l).delivered = w.delivered := by
  induction l with
  | nil => intro w tokBase; exact ⟨rfl, rfl, rfl, rfl⟩
  | cons p rest ih =>
    intro w tokBase
    obtain ⟨t, b⟩ := p
    rcases installBatch_exhaustive w tokBase t b rest with
      he | ⟨gbid, _, _, he⟩ | ⟨_, _, he⟩ <;> rw [he] <;> exact ih _ _

/-- `installOpMembers` touches only the op chains, appending one chain
per operation with a fresh member token. -/
theorem installOpMembers_components (L : List Operation) :
    ∀ (w : World) (tokBase : Nat),
      (installOpMembers w tokBase L).sess = w.sess ∧
      (installOpMembers w tokBase L).chains = w.chains ∧
      (installOpMembers w tokBase L).completedBatches = w.completedBatches ∧
      (installOpMembers w tokBase L).completedOps = w.completedOps ∧
      (installOpMembers w tokBase L).delivered = w.delivered := by
  induction L with
  | nil => intro w tokBase; exact ⟨rfl, rfl, rfl, rfl, rfl⟩
  | cons op rest ih =>
    intro w tokBase
    exact ih _ _

/-- Op chains are never removed by `installOpMembers`. -/
theorem installOpMembers_mono (L : List Operation) :
    ∀ (w : World) (tokBase : Nat) (oc : OpChain),
      oc ∈ w.opChains → oc ∈ (installOpMembers w tokBase L).opChains := by
  induction L with
  | nil => intro w tokBase oc h; exact h
  | cons op rest ih =>
    intro w tokBase oc h
    exact ih _ _ oc (by simp [h])

/-- Membership description of the op chains created by
`installOpMembers`. -/
theorem installOpMembers_opChains (L : List Operation) :
    ∀ (w : World) (tokBase : Nat),
      (∀ oc ∈ (installOpMembers w tokBase L).opChains,
        oc ∈ w.opChains ∨ ∃ i : Fin L.length,
          oc = ⟨(L.get i).oid, [Cb.member (tokBase + i)]⟩) ∧
      (∀ i : Fin L.length,
        (⟨(L.get i).oid, [Cb.member (tokBase + i)]⟩ : OpChain) ∈
          (installOpMembers w tokBase L).opChains) := by
  induction L with
  | nil =>
    intro w tokBase
    refine ⟨fun oc hoc => Or.inl hoc, ?_⟩
    intro i
    exact absurd i.2 (by simp)
  | cons op rest ih =>
    intro w tokBase
    constructor
    · intro oc hoc
      rcases (ih _ (tokBase + 1)).1 oc hoc with h | ⟨i, h⟩
      · rcases List.mem_append.mp h with h | h
        · exact Or.inl h
        · simp only [List.mem_singleton] at h
          refine Or.inr ⟨⟨0, by simp⟩, ?_⟩
          simpa using h
      · refine Or.inr ⟨⟨i + 1, by simpa using Nat.succ_lt_succ i.2⟩, ?_⟩
        rw [h]
        simp only [List.get_cons_succ]
        have : tokBase + 1 + (i : Nat) = tokBase + ((i : Nat) + 1) := by omega
        rw [this]
    · intro i
      rcases i with ⟨iv, hi⟩
      cases iv with
      | zero =>
        have hmem : (⟨op.oid, [Cb.member tokBase]⟩ : OpChain) ∈
            (installOpMembers { w with opChains :=
              w.opChains ++ [⟨op.oid, [Cb.member tokBase]⟩] } (tokBase + 1) rest).opChains :=
          installOpMembers_mono rest _ _ _ (by simp)
        simpa using hmem
      | succ n =>
        have hn := (ih { w with opChains :=
            w.opChains ++ [⟨op.oid, [Cb.member tokBase]⟩] } (tokBase + 1)).2
          ⟨n, by simpa using Nat.lt_of_succ_lt_succ hi⟩
        have : tokBase + 1 + n = tokBase + (n + 1) := by omega
        rw [this] at hn
        simpa using hn

/-- Later install steps use fresh member tokens, so they preserve the
own-chain configuration of an earlier token. -/
theorem installBatchMembers_own (b : Batch) (tok : Nat) (l : List (Nat × Batch)) :
    ∀ (w : World) (tokBase : Nat), tok < tokBase →
      confOwn w b tok → confOwn (installBatchMembers w tokBase l) b tok := by
  induction l with
  | nil => intro w tokBase _ h; exact h
  | cons p rest ih =>
    intro w tokBase htok hco
    obtain ⟨t', b'⟩ := p
    rcases installBatch_exhaustive w tokBase t' b' rest with
      he | ⟨gbid, _, _, he⟩ | ⟨_, _, he⟩ <;> rw [he]
    · exact ih _ _ (by omega) hco
    · refine ih _ _ (by omega) ⟨hco.1, ?_⟩
      intro c hc hm
      rcases appendToChain_mem _ _ _ c hc with ⟨c0, hc0, _, hbid, hsub⟩
      rcases hsub _ hm with h | h
      · exact hbid ▸ hco.2 c0 hc0 h
      · exfalso
        rcases List.mem_cons.mp h with h | h
        · exact Cb.noConfusion h
        · simp only [List.mem_singleton] at h
          injection h with h
          omega
    · refine ih _ _ (by omega) ⟨hco.1, ?_⟩
      intro c hc hm
      rcases List.mem_append.mp hc with h | h
      · exact hco.2 c h hm
      · simp only [List.mem_singleton] at h
        subst h
        exfalso
        rcases List.mem_cons.mp hm with h | h
        · exact Cb.noConfusion h
        · simp only [List.mem_singleton] at h
          injection h with h
          omega

/-- Later install steps never place an earlier member token in any
chain. -/
theorem installBatchMembers_chainfree (tok : Nat) (l : List (Nat × Batch)) :
    ∀ (w : World) (tokBase : Nat), tok < tokBase →
      (∀ c ∈ w.chains, Cb.member tok ∉ c.queue) →
      ∀ c ∈ (installBatchMembers w tokBase l).chains, Cb.member tok ∉ c.queue := by
  induction l with
  | nil => intro w tokBase _ h; exact h
  | cons p rest ih =>
    intro w tokBase htok hch
    obtain ⟨t', b'⟩ := p
    rcases installBatch_exhaustive w tokBase t' b' rest with
      he | ⟨gbid, _, _, he⟩ | ⟨_, _, he⟩ <;> rw [he]
    · exact ih _ _ (by omega) hch
    · refine ih _ _ (by omega) ?_
      intro c hc hm
      rcases appendToChain_mem _ _ _ c hc with ⟨c0, hc0, _, _, hsub⟩
      rcases hsub _ hm with h | h
      · exact hch c0 hc0 h
      · rcases List.mem_cons.mp h with h | h
        · exact Cb.noConfusion h
        · simp only [List.mem_singleton] at h
          injection h with h
          omega
    · refine ih _ _ (by omega) ?_
      intro c hc hm
      rcases List.mem_append.mp hc with h | h
      · exact hch c h hm
      · simp only [List.mem_singleton] at h
        subst h
        rcases List.mem_cons.mp hm with h | h
        · exact Cb.noConfusion h
        · simp only [List.mem_singleton] at h
          injection h with h
          omega

/-- Later install steps preserve the nowhere configuration of an earlier
token. -/
theorem installBatchMembers_none (tok : Nat) (l : List (Nat × Batch))
    (w : World) (tokBase : Nat) (htok : tok < tokBase)
    (h : confNone w tok) : confNone (installBatchMembers w tokBase l) tok := by
  refine ⟨?_, installBatchMembers_chainfree tok l w tokBase htok h.2⟩
  intro oc hoc
  rw [(installBatch_components l w tokBase).1] at hoc
  exact h.1 oc hoc

/-- Later install steps (all for other tablets) preserve the guarded
configuration of an earlier token. -/
theorem installBatchMembers_guard (t : Nat) (b : Batch) (tok : Nat)
    (l : List (Nat × Batch)) :
    ∀ (w : World) (tokBase : Nat), tok < tokBase →
      (∀ p ∈ l, p.1 ≠ t) →
      (aget w.sess.operationsInFlight t).isSome →
      confGuarded w t b tok →
      confGuarded (installBatchMembers w tokBase l) t b tok := by
  induction l with
  | nil => intro w tokBase _ _ _ h; exact h
  | cons p rest ih =>
    intro w tokBase htok hkeys hinf hcg
    obtain ⟨t', b'⟩ := p
    have ht' : t' ≠ t := hkeys (t', b') (by simp)
    have hkeys' : ∀ p ∈ rest, p.1 ≠ t := fun p hp => hkeys p (by simp [hp])
    obtain ⟨hacc, hops, hopr, l1, c, l2, hsplit, hg, hsides⟩ := hcg
    rcases installBatch_exhaustive w tokBase t' b' rest with
      he | ⟨gbid, hacc', hinf', he⟩ | ⟨hacc', hinf', he⟩ <;> rw [he]
    · exact ih _ _ (by omega) hkeys' hinf
        ⟨hacc, hops, hopr, l1, c, l2, hsplit, hg, hsides⟩
    · have hcbs1 : Cb.member tok ∉ [Cb.flushRetry t' b', Cb.member tokBase] := by
        intro h
        rcases List.mem_cons.mp h with h | h
        · exact Cb.noConfusion h
        · simp only [List.mem_singleton] at h
          injection h with h
          omega
      have hcbs2 : Cb.flushRetry t b ∉ [Cb.flushRetry t' b', Cb.member tokBase] := by
        intro h
        rcases List.mem_cons.mp h with h | h
        · injection h with h1 _
          exact ht' h1.symm
        · simp only [List.mem_singleton] at h
          exact Cb.noConfusion h
      refine ih _ _ (by omega) hkeys' hinf ⟨hacc, hops, hopr, ?_⟩
      show ∃ l1' c' l2',
        appendToChain w.chains gbid [Cb.flushRetry t' b', Cb.member tokBase] =
          l1' ++ c' :: l2' ∧ _ ∧ _
      rw [hsplit]
      rcases appendToChain_guard t b tok gbid _ hcbs1 hcbs2 l1 c l2 hsides hg with
        ⟨l1', c', l2', he2, hg', hcl⟩
      exact ⟨l1', c', l2', he2, hg', hcl⟩
    · refine ih _ _ (by omega) hkeys'
        (by simpa [aget_aput_ne _ _ _ _ ht'] using hinf)
        ⟨by simpa [aget_aremoveGet_ne _ _ _ ht'] using hacc, hops, hopr, ?_⟩
      refine ⟨l1, c, l2 ++ [⟨t', b'.bid, [Cb.opInFlight t', Cb.member tokBase]⟩],
        by rw [hsplit]; simp, hg, ?_⟩
      intro x hx
      rcases List.mem_append.mp hx with hx | hx
      · exact hsides x (by simp [hx])
      · rcases List.mem_append.mp hx with hx | hx
        · exact hsides x (by simp [hx])
        · simp only [List.mem_singleton] at hx
          subst hx
          constructor
          · intro hm
            rcases List.mem_cons.mp hm with h | h
            · exact Cb.noConfusion h
            · simp only [List.mem_singleton] at h
              injection h with h
              omega
          · intro hm
            rcases List.mem_cons.mp hm with h | h
            · exact Cb.noConfusion h
            · simp only [List.mem_singleton] at h
              exact Cb.noConfusion h

theorem installBatchMembers_delivered (l : List (Nat × Batch)) (w : World)
    (tokBase : Nat) :
    (installBatchMembers w tokBase l).delivered = w.delivered :=
  (installBatch_components l w tokBase).2.2.2

/-- Installing the batch members establishes, for every snapshot entry,
the batch-token completion invariant in the resulting world. -/
theorem installBatchMembers_establish (l : List (Nat × Batch)) :
    ∀ (w : World) (tokBase : Nat),
      (l.map Prod.fst).Nodup →
      (∀ c ∈ w.chains, ∀ k, tokBase ≤ k → Cb.member k ∉ c.queue) →
      (∀ c ∈ w.chains, ∀ p ∈ l, ∀ b' : Batch, Cb.flushRetry p.1 b' ∉ c.queue) →
      (∀ oc ∈ w.opChains, ∀ k, tokBase ≤ k → Cb.member k ∉ oc.queue) →
      (∀ oc ∈ w.opChains, ∀ t' b', Cb.flushRetry t' b' ∉ oc.queue) →
      w.delivered = [] →
      ∀ j : Fin l.length,
        BatchTokInv (l.get j).1 (l.get j).2 (tokBase + (j : Nat))
          (installBatchMembers w tokBase l) := by
  induction l with
  | nil =>
    intro w tokBase _ _ _ _ _ _ j
    exact absurd j.2 (by simp)
  | cons p rest ih =>
    intro w tokBase hnodup hfresh hretfree hopfresh hopret hdel j
    obtain ⟨t, b⟩ := p
    rw [List.map_cons] at hnodup
    have hnodup2 := List.nodup_cons.mp hnodup
    have htnotin : t ∉ rest.map Prod.fst := hnodup2.1
    have hkeys' : ∀ q ∈ rest, q.1 ≠ t := by
      intro q hq he
      exact htnotin (he ▸ List.mem_map_of_mem Prod.fst hq)
    obtain ⟨jv, hj⟩ := j
    cases jv with
    | zero =>
      show BatchTokInv t b (tokBase + 0) (installBatchMembers w tokBase ((t, b) :: rest))
      rcases installBatch_exhaustive w tokBase t b rest with
        he | ⟨gbid, hacc, hinf, he⟩ | ⟨hacc, hinf, he⟩
      · rw [he]
        have hnone0 : confNone w tokBase :=
          ⟨fun oc hoc => hopfresh oc hoc tokBase le_rfl,
           fun c hc => hfresh c hc tokBase le_rfl⟩
        have hfin := installBatchMembers_none tokBase rest w (tokBase + 1) (by omega) hnone0
        refine ⟨?_, Or.inr ⟨?_, Or.inr (Or.inr hfin)⟩⟩
        · intro h
          rw [installBatchMembers_delivered] at h
          rw [hdel] at h
          simp at h
        · intro h
          rw [installBatchMembers_delivered] at h
          rw [hdel] at h
          simp at h
      · rw [he]
        rcases appendToChain_cases w.chains gbid [Cb.flushRetry t b, Cb.member tokBase] with
          ⟨_, he2⟩ | ⟨l1, c0, l2, hl, hbid, _, he2⟩
        · have hnone0 : confNone
              { w with chains :=
                  (appendToChain w.chains gbid [Cb.flushRetry t b, Cb.member tokBase]) }
              tokBase := by
            refine ⟨fun oc hoc => hopfresh oc hoc tokBase le_rfl, ?_⟩
            intro c hc
            rw [he2] at hc
            exact hfresh c hc tokBase le_rfl
          have hfin := installBatchMembers_none tokBase rest _ (tokBase + 1) (by omega) hnone0
          refine ⟨?_, Or.inr ⟨?_, Or.inr (Or.inr hfin)⟩⟩
          · intro h
            rw [installBatchMembers_delivered] at h
            simp [hdel] at h
          · intro h
            rw [installBatchMembers_delivered] at h
            simp [hdel] at h
        · have hc0mem : c0 ∈ w.chains := by rw [hl]; simp
          have hguard0 : confGuarded
              { w with chains :=
                  (appendToChain w.chains gbid [Cb.flushRetry t b, Cb.member tokBase]) }
              t b tokBase := by
            refine ⟨hacc, fun oc hoc => hopfresh oc hoc tokBase le_rfl,
              fun oc hoc => hopret oc hoc t b, ?_⟩
            refine ⟨l1, _, l2, he2, ?_, ?_⟩
            · have hpre : Cb.member tokBase ∉ c0.queue := hfresh c0 hc0mem tokBase le_rfl
              exact guardedQueue_pre_retry t b tokBase c0.queue [Cb.member tokBase] hpre
            · intro x hx
              have hxin : x ∈ w.chains := by
                rw [hl]
                rcases List.mem_append.mp hx with h | h
                · simp [h]
                · simp [h]
              exact ⟨hfresh x hxin tokBase le_rfl, hretfree x hxin (t, b) (by simp) b⟩
          have hfin := installBatchMembers_guard t b tokBase rest _ (tokBase + 1)
            (by omega) hkeys' (by rw [hinf]; rfl) hguard0
          refine ⟨?_, Or.inr ⟨?_, Or.inr (Or.inl hfin)⟩⟩
          · intro h
            rw [installBatchMembers_delivered] at h
            simp [hdel] at h
          · intro h
            rw [installBatchMembers_delivered] at h
            simp [hdel] at h
      · rw [he]
        have hown0 : confOwn
            { w with
                sess := { w.sess with
                  operations := (aremoveGet w.sess.operations t).2
                  operationsInFlight :=
                    aput w.sess.operationsInFlight t (Fut.batchDeferred b.bid) }
                chains := w.chains ++ [⟨t, b.bid, [Cb.opInFlight t, Cb.member tokBase]⟩] }
            b tokBase := by
          refine ⟨fun oc hoc => hopfresh oc hoc tokBase le_rfl, ?_⟩
          intro c hc hm
          rcases List.mem_append.mp hc with h | h
          · exact absurd hm (hfresh c h tokBase le_rfl)
          · simp only [List.mem_singleton] at h
            subst h
            rfl
        have hfin := installBatchMembers_own b tokBase rest _ (tokBase + 1)
          (by omega) hown0
        refine ⟨?_, Or.inr ⟨?_, Or.inl hfin⟩⟩
        · intro h
          rw [installBatchMembers_delivered] at h
          simp [hdel] at h
        · intro h
          rw [installBatchMembers_delivered] at h
          simp [hdel] at h
    | succ n =>
      have hn : n < rest.length := Nat.lt_of_succ_lt_succ (by simpa using hj)
      show BatchTokInv (rest.get ⟨n, hn⟩).1 (rest.get ⟨n, hn⟩).2 (tokBase + (n + 1))
        (installBatchMembers w tokBase ((t, b) :: rest))
      have harith : tokBase + (n + 1) = (tokBase + 1) + n := by omega
      rw [harith]
      have hnodup' : (rest.map Prod.fst).Nodup := hnodup2.2
      rcases installBatch_exhaustive w tokBase t b rest with
        he | ⟨gbid, hacc, hinf, he⟩ | ⟨hacc, hinf, he⟩ <;> rw [he]
      · exact ih w (tokBase + 1) hnodup'
          (fun c hc k hk => hfresh c hc k (by omega))
          (fun c hc p hp b'' => hretfree c hc p (by simp [hp]) b'')
          (fun oc hoc k hk => hopfresh oc hoc k (by omega))
          hopret hdel ⟨n, hn⟩
      · refine ih ?_ (tokBase + 1) hnodup' ?_ ?_ ?_ ?_ ?_ ⟨n, hn⟩
        · intro c hc k hk
          rcases appendToChain_mem _ _ _ c hc with ⟨c0, hc0, _, _, hsub⟩
          intro hm
          rcases hsub _ hm with h | h
          · exact hfresh c0 hc0 k (by omega) h
          · rcases List.mem_cons.mp h with h | h
            · exact Cb.noConfusion h
            · simp only [List.mem_singleton] at h
              injection h with h
              omega
        · intro c hc p hp b''
          rcases appendToChain_mem _ _ _ c hc with ⟨c0, hc0, _, _, hsub⟩
          intro hm
          rcases hsub _ hm with h | h
          · exact hretfree c0 hc0 p (by simp [hp]) b'' h
          · rcases List.mem_cons.mp h with h | h
            · injection h with h1 _
              exact hkeys' p hp h1
            · simp only [List.mem_singleton] at h
              exact Cb.noConfusion h
        · exact fun oc hoc k hk => hopfresh oc hoc k (by omega)
        · exact hopret
        · exact hdel
      · refine ih ?_ (tokBase + 1) hnodup' ?_ ?_ ?_ ?_ ?_ ⟨n, hn⟩
        · intro c hc k hk
          rcases List.mem_append.mp hc with h | h
          · exact hfresh c h k (by omega)
          · simp only [List.mem_singleton] at h
            subst h
            intro hm
            rcases List.mem_cons.mp hm with h | h
            · exact Cb.noConfusion h
            · simp only [List.mem_singleton] at h
              injection h with h
              omega
        · intro c hc p hp b''
          rcases List.mem_append.mp hc with h | h
          · exact hretfree c h p (by simp [hp]) b''
          · simp only [List.mem_singleton] at h
            subst h
            intro hm
            rcases List.mem_cons.mp hm with h | h
            · exact Cb.noConfusion h
            · simp only [List.mem_singleton] at h
              exact Cb.noConfusion h
        · exact fun oc hoc k hk => hopfresh oc hoc k (by omega)
        · exact hopret
        · exact hdel

/-! Structural lemmas about `flushBatches` and `flush`. -/

theorem flushTablet_lookup (s : SessionState) (t : Nat) (b : Batch) :
    (flushTablet s t b).1.operationsInLookup = s.operationsInLookup := by
  by_cases hacc : aget s.operations t = some b
  · cases hg : aget s.operationsInFlight t with
    | some g => rw [flushTablet_blocked s t b g hacc hg]
    | none => rw [flushTablet_dispatch s t b hacc hg]
  · rw [flushTablet_not_expected s t b hacc]

theorem flushBatches_lookup (l : List (Nat × Batch)) :
    ∀ s0 : SessionState,
      (flushBatches s0 l).1.operationsInLookup = s0.operationsInLookup := by
  induction l with
  | nil => intro s0; rfl
  | cons p rest ih =>
    intro s0
    obtain ⟨t, b⟩ := p
    show (flushBatches (flushTablet s0 t b).1 rest).1.operationsInLookup = _
    rw [ih, flushTablet_lookup]

theorem flushBatches_len (l : List (Nat × Batch)) :
    ∀ s0 : SessionState, (flushBatches s0 l).2.1.length = l.length := by
  induction l with
  | nil => intro s0; rfl
  | cons p rest ih =>
    intro s0
    obtain ⟨t, b⟩ := p
    show ((flushTablet s0 t b).2.1 :: (flushBatches (flushTablet s0 t b).1 rest).2.1).length = _
    simp [ih]

theorem flushBatches_acc_preserved (l : List (Nat × Batch)) :
    ∀ (s0 : SessionState) (t : Nat) (b : Batch),
      (∀ p ∈ l, p.1 ≠ t) →
      aget s0.operations t = some b →
      aget (flushBatches s0 l).1.operations t = some b := by
  induction l with
  | nil => intro s0 t b _ h; exact h
  | cons p rest ih =>
    intro s0 t b hkeys h
    obtain ⟨t', b'⟩ := p
    show aget (flushBatches (flushTablet s0 t' b').1 rest).1.operations t = some b
    exact ih _ t b (fun q hq => hkeys q (by simp [hq]))
      (flushTablet_acc_preserved s0 t' b' t b h (Or.inl (by
        intro ⟨h1, _⟩
        exact hkeys (t', b') (by simp) h1)))

theorem aget_eq_none_of_not_mem_keys {β : Type} (l : List (Nat × β)) (k : Nat)
    (h : k ∉ l.map Prod.fst) : aget l k = none := by
  induction l with
  | nil => rfl
  | cons p rest ih =>
    simp only [List.map_cons, List.mem_cons] at h
    push_neg at h
    obtain ⟨q, qs⟩ := p
    simp only [aget, if_neg (fun he : q = k => h.1 he.symm)]
    exact ih h.2

theorem aremoveGet_keys_sublist {β : Type} (l : List (Nat × β)) (k : Nat) :
    ((aremoveGet l k).2.map Prod.fst).Sublist (l.map Prod.fst) := by
  induction l with
  | nil => simp [aremoveGet]
  | cons p rest ih =>
    obtain ⟨q, qs⟩ := p
    by_cases hp : q = k
    · simp only [aremoveGet, if_pos hp, List.map_cons]
      exact List.sublist_cons_self _ _
    · simp only [aremoveGet, if_neg hp, List.map_cons]
      exact ih.cons₂ _

theorem aget_aremoveGet_self_nodup {β : Type} (l : List (Nat × β)) (k : Nat)
    (h : (l.map Prod.fst).Nodup) : aget (aremoveGet l k).2 k = none := by
  induction l with
  | nil => rfl
  | cons p rest ih =>
    obtain ⟨q, qs⟩ := p
    rw [List.map_cons] at h
    have h2 := List.nodup_cons.mp h
    by_cases hp : q = k
    · simp only [aremoveGet, if_pos hp]
      refine aget_eq_none_of_not_mem_keys rest k (fun hmem => h2.1 ?_)
      exact hp ▸ hmem
    · simp only [aremoveGet, if_neg hp, aget, if_neg hp]
      exact ih h2.2

theorem flushTablet_ops_nodup (s : SessionState) (t : Nat) (b : Batch)
    (h : (s.operations.map Prod.fst).Nodup) :
    ((flushTablet s t b).1.operations.map Prod.fst).Nodup := by
  by_cases hacc : aget s.operations t = some b
  · cases hg : aget s.operationsInFlight t with
    | some g => rw [flushTablet_blocked s t b g hacc hg]; exact h
    | none =>
      rw [flushTablet_dispatch s t b hacc hg]
      exact h.sublist (aremoveGet_keys_sublist s.operations t)
  · rw [flushTablet_not_expected s t b hacc]; exact h

theorem aget_of_mem_nodup {β : Type} (l : List (Nat × β)) (k : Nat) (v : β)
    (h : (l.map Prod.fst).Nodup) (hmem : (k, v) ∈ l) : aget l k = some v := by
  induction l with
  | nil => exact absurd hmem (by simp)
  | cons p rest ih =>
    obtain ⟨q, qs⟩ := p
    rw [List.map_cons] at h
    have h2 := List.nodup_cons.mp h
    rcases List.mem_cons.mp hmem with he | hmem'
    · injection he with h1 h2'
      subst h1; subst h2'
      simp [aget]
    · have hq : q ≠ k := by
        intro he
        apply h2.1
        rw [he]
        exact List.mem_map.mpr ⟨(k, v), hmem', rfl⟩
      simp only [aget, if_neg hq]
      exact ih h2.2 hmem'

theorem aget_aremoveGet_none {β : Type} (l : List (Nat × β)) (k : Nat)
    (h : aget l k = none) : aget (aremoveGet l k).2 k = none := by
  induction l with
  | nil => rfl
  | cons p rest ih =>
    obtain ⟨q, qs⟩ := p
    by_cases hq : q = k
    · rw [aget, if_pos hq] at h
      exact absurd h (by simp)
    · rw [aget, if_neg hq] at h
      simp only [aremoveGet, if_neg hq, aget, if_neg hq]
      exact ih h

theorem flushTablet_acc_none (s : SessionState) (t' : Nat) (b' : Batch) (t : Nat)
    (h : aget s.operations t = none) :
    aget (flushTablet s t' b').1.operations t = none := by
  by_cases hacc : aget s.operations t' = some b'
  · cases hg : aget s.operationsInFlight t' with
    | some g => rw [flushTablet_blocked s t' b' g hacc hg]; exact h
    | none =>
      rw [flushTablet_dispatch s t' b' hacc hg]
      by_cases ht : t' = t
      · subst ht
        exact aget_aremoveGet_none _ _ h
      · simpa [aget_aremoveGet_ne _ _ _ ht] using h
  · rw [flushTablet_not_expected s t' b' hacc]; exact h

theorem flushBatches_acc_none (l : List (Nat × Batch)) :
    ∀ (s0 : SessionState) (t : Nat),
      aget s0.operations t = none →
      aget (flushBatches s0 l).1.operations t = none := by
  induction l with
  | nil => intro s0 t h; exact h
  | cons p rest ih =>
    intro s0 t h
    obtain ⟨t', b'⟩ := p
    show aget (flushBatches (flushTablet s0 t' b').1 rest).1.operations t = none
    exact ih _ t (flushTablet_acc_none s0 t' b' t h)

/-- Per-entry behaviour of the `flushTablet` loop of `flush()` on a
snapshot with distinct tablet keys: a snapshot batch whose tablet has a
batch in flight stays accumulating and contributes the chained retry
deferred to the group; one whose tablet is free is dispatched — its entry
leaves the accumulating map, its RPC is handed to the dispatcher, and its
own batch deferred joins the group. -/
theorem flushBatches_spec (l : List (Nat × Batch)) :
    ∀ (s0 : SessionState),
      (l.map Prod.fst).Nodup →
      (s0.operations.map Prod.fst).Nodup →
      (∀ p ∈ l, aget s0.operations p.1 = some p.2) →
      ∀ t b, (t, b) ∈ l →
        ((∀ g, aget s0.operationsInFlight t = some g →
            aget (flushBatches s0 l).1.operations t = some b ∧
            Fut.chainedFlushRetry g t b ∈ (flushBatches s0 l).2.1)
         ∧ (aget s0.operationsInFlight t = none →
            aget (flushBatches s0 l).1.operations t = none ∧
            Fut.batchDeferred b.bid ∈ (flushBatches s0 l).2.1 ∧
            ∃ b', b'.bid = b.bid ∧
              Rpc.batchRpc b' ∈ (flushBatches s0 l).2.2.sent)) := by
  induction l with
  | nil => intro s0 _ _ _ t b h; exact absurd h (by simp)
  | cons p rest ih =>
    intro s0 hnodup hops hpresent t b hmem
    obtain ⟨t0, b0⟩ := p
    rw [List.map_cons] at hnodup
    have hnodup2 := List.nodup_cons.mp hnodup
    have hkeys0 : ∀ q ∈ rest, q.1 ≠ t0 := by
      intro q hq he
      apply hnodup2.1
      rw [← he]
      exact List.mem_map.mpr ⟨q, hq, rfl⟩
    have hacc0 : aget s0.operations t0 = some b0 := hpresent (t0, b0) (by simp)
    rcases List.mem_cons.mp hmem with hmem | hmem
    · -- the head entry
      injection hmem with h1 h2
      subst h1; subst h2
      constructor
      · intro g hg
        have hft := flushTablet_blocked s0 t b g hacc0 hg
        constructor
        · show aget (flushBatches (flushTablet s0 t b).1 rest).1.operations t = some b
          rw [hft]
          exact flushBatches_acc_preserved rest s0 t b hkeys0 hacc0
        · show Fut.chainedFlushRetry g t b ∈
            (flushTablet s0 t b).2.1 :: (flushBatches (flushTablet s0 t b).1 rest).2.1
          rw [hft]
          simp
      · intro hg
        have hft := flushTablet_dispatch s0 t b hacc0 hg
        refine ⟨?_, ?_, ?_⟩
        · show aget (flushBatches (flushTablet s0 t b).1 rest).1.operations t = none
          rw [hft]
          exact flushBatches_acc_none rest _ t (aget_aremoveGet_self_nodup s0.operations t hops)
        · show Fut.batchDeferred b.bid ∈
            (flushTablet s0 t b).2.1 :: (flushBatches (flushTablet s0 t b).1 rest).2.1
          rw [hft]
          simp
        · show ∃ b', b'.bid = b.bid ∧ Rpc.batchRpc b' ∈
            ((flushTablet s0 t b).2.2 ++ (flushBatches (flushTablet s0 t b).1 rest).2.2).sent
          rw [hft]
          refine ⟨if s0.currentTimeout ≠ 0 then { b with timeoutMillis := s0.currentTimeout } else b, ?_, ?_⟩
          · split_ifs <;> rfl
          · show _ ∈ ({ sent := [_] } : Effects).sent ++ _
            simp
    · -- an entry of the tail
      have htne : t ≠ t0 := by
        intro he
        apply hnodup2.1
        rw [← he]
        exact List.mem_map.mpr ⟨(t, b), hmem, rfl⟩
      have hpresent' : ∀ p ∈ rest, aget (flushTablet s0 t0 b0).1.operations p.1 = some p.2 := by
        intro q hq
        exact flushTablet_acc_preserved s0 t0 b0 q.1 q.2 (hpresent q (by simp [hq]))
          (Or.inl (by
            intro ⟨h1, _⟩
            exact hkeys0 q hq h1.symm))
      have hih := ih (flushTablet s0 t0 b0).1 hnodup2.2
        (flushTablet_ops_nodup s0 t0 b0 hops) hpresent' t b hmem
      have hinfeq : aget (flushTablet s0 t0 b0).1.operationsInFlight t =
          aget s0.operationsInFlight t :=
        flushTablet_inflight_preserved s0 t0 b0 t (fun he => htne he.symm)
      constructor
      · intro g hg
        have h2 := hih.1 g (by rw [hinfeq]; exact hg)
        exact ⟨h2.1, by
          show _ ∈ (flushTablet s0 t0 b0).2.1 ::
            (flushBatches (flushTablet s0 t0 b0).1 rest).2.1
          exact List.mem_cons_of_mem _ h2.2⟩
      · intro hg
        have h2 := hih.2 (by rw [hinfeq]; exact hg)
        refine ⟨h2.1, ?_, ?_⟩
        · show _ ∈ (flushTablet s0 t0 b0).2.1 ::
            (flushBatches (flushTablet s0 t0 b0).1 rest).2.1
          exact List.mem_cons_of_mem _ h2.2.1
        · obtain ⟨b', hb1, hb2⟩ := h2.2.2
          refine ⟨b', hb1, ?_⟩
          show _ ∈ ((flushTablet s0 t0 b0).2.2 ++
            (flushBatches (flushTablet s0 t0 b0).1 rest).2.2).sent
          show _ ∈ (flushTablet s0 t0 b0).2.2.sent ++
            (flushBatches (flushTablet s0 t0 b0).1 rest).2.2.sent
          exact List.mem_append_right _ hb2

/-! Establishment of both completion invariants at the post-flush world. -/

theorem initialChains_queue (l : List (Nat × Fut)) :
    ∀ c ∈ initialChains l, c.queue = [Cb.opInFlight c.tablet] := by
  induction l with
  | nil => intro c h; exact absurd h (by simp [initialChains])
  | cons p rest ih =>
    obtain ⟨t, f⟩ := p
    cases f with
    | batchDeferred gb =>
      intro c hc
      rcases List.mem_cons.mp hc with he | hc'
      · subst he; rfl
      · exact ih c hc'
    | fromResult => exact ih
    | opDeferred o => exact ih
    | chainedFlushRetry a tb eb => exact ih
    | chainedRetryRpc a o => exact ih
    | locate tb k => exact ih
    | waitCreate tb => exact ih
    | group fs => exact ih

/-- The session state carried by the installed world is exactly the
session state `flush()` leaves behind (the `flushTablet` loop's result). -/
theorem installBatchMembers_sess (l : List (Nat × Batch)) :
    ∀ (w : World) (tokBase : Nat),
      (installBatchMembers w tokBase l).sess = (flushBatches w.sess l).1 := by
  induction l with
  | nil => intro w tokBase; rfl
  | cons p rest ih =>
    intro w tokBase
    obtain ⟨t, b⟩ := p
    show _ = (flushBatches (flushTablet w.sess t b).1 rest).1
    by_cases hacc : aget w.sess.operations t = some b
    · cases hg : aget w.sess.operationsInFlight t with
      | some g =>
        have hft := flushTablet_blocked w.sess t b g hacc hg
        by_cases hgb : ∃ gbid, g = Fut.batchDeferred gbid
        · obtain ⟨gbid, rfl⟩ := hgb
          rw [installBatch_blocked w tokBase t b rest gbid hacc hg, ih, hft]
        · push_neg at hgb
          rw [installBatch_blocked_other w tokBase t b rest g hacc hg hgb, ih, hft]
      | none =>
        have hft := flushTablet_dispatch w.sess t b hacc hg
        rw [installBatch_dispatch w tokBase t b rest hacc hg, ih, hft]
    · have hft := flushTablet_not_expected w.sess t b hacc
      rw [installBatch_noop w tokBase t b rest hacc, ih, hft]

theorem postFlushWorld_sess (s : SessionState) :
    (postFlushWorld s).sess = (flush s).1 := by
  show (installBatchMembers
      (installOpMembers
        { sess := { s with operationsInLookup := [] }
          chains := initialChains s.operationsInFlight
          opChains := []
          completedBatches := []
          completedOps := []
          delivered := [] } 0 s.operationsInLookup)
      s.operationsInLookup.length s.operations).sess = _
  rw [installBatchMembers_sess]
  rw [(installOpMembers_components s.operationsInLookup _ 0).1]
  rfl

theorem postFlushWorld_establish (s : SessionState)
    (hkeys : (s.operations.map Prod.fst).Nodup) :
    (∀ i : Fin s.operationsInLookup.length,
      OpTokInv (s.operationsInLookup.get i).oid (i : Nat) (postFlushWorld s)) ∧
    (∀ j : Fin s.operations.length,
      BatchTokInv (s.operations.get j).1 (s.operations.get j).2
        (s.operationsInLookup.length + (j : Nat)) (postFlushWorld s)) := by
  have hw1comp := installOpMembers_components s.operationsInLookup
    { sess := { s with operationsInLookup := [] }
      chains := initialChains s.operationsInFlight
      opChains := []
      completedBatches := []
      completedOps := []
      delivered := [] } 0
  have hw1op := installOpMembers_opChains s.operationsInLookup
    { sess := { s with operationsInLookup := [] }
      chains := initialChains s.operationsInFlight
      opChains := []
      completedBatches := []
      completedOps := []
      delivered := [] } 0
  have hchq : ∀ c ∈ (installOpMembers
      { sess := { s with operationsInLookup := [] }
        chains := initialChains s.operationsInFlight
        opChains := []
        completedBatches := []
        completedOps := []
        delivered := [] } 0 s.operationsInLookup).chains,
      c.queue = [Cb.opInFlight c.tablet] := by
    rw [hw1comp.2.1]
    exact initialChains_queue s.operationsInFlight
  have hchfree : ∀ c ∈ (installOpMembers
      { sess := { s with operationsInLookup := [] }
        chains := initialChains s.operationsInFlight
        opChains := []
        completedBatches := []
        completedOps := []
        delivered := [] } 0 s.operationsInLookup).chains,
      ∀ k : Nat, Cb.member k ∉ c.queue := by
    intro c hc k hm
    rw [hchq c hc] at hm
    simp at hm
  have hopshape : ∀ oc ∈ (installOpMembers
      { sess := { s with operationsInLookup := [] }
        chains := initialChains s.operationsInFlight
        opChains := []
        completedBatches := []
        completedOps := []
        delivered := [] } 0 s.operationsInLookup).opChains,
      ∃ i : Fin s.operationsInLookup.length,
        oc = ⟨(s.operationsInLookup.get i).oid, [Cb.member (0 + (i : Nat))]⟩ := by
    intro oc hoc
    rcases (hw1op.1 oc hoc) with h0 | hi
    · exact absurd h0 (by simp)
    · exact hi
  have hdel1 : (installOpMembers
      { sess := { s with operationsInLookup := [] }
        chains := initialChains s.operationsInFlight
        opChains := []
        completedBatches := []
        completedOps := []
        delivered := [] } 0 s.operationsInLookup).delivered = [] :=
    hw1comp.2.2.2.2
  constructor
  · -- the solo-operation tokens
    intro i
    show OpTokInv (s.operationsInLookup.get i).oid (i : Nat)
      (installBatchMembers
        (installOpMembers
          { sess := { s with operationsInLookup := [] }
            chains := initialChains s.operationsInFlight
            opChains := []
            completedBatches := []
            completedOps := []
            delivered := [] } 0 s.operationsInLookup)
        s.operationsInLookup.length s.operations)
    have hcomp := installBatch_components s.operations
      (installOpMembers
        { sess := { s with operationsInLookup := [] }
          chains := initialChains s.operationsInFlight
          opChains := []
          completedBatches := []
          completedOps := []
          delivered := [] } 0 s.operationsInLookup)
      s.operationsInLookup.length
    have hdelF : (installBatchMembers
        (installOpMembers
          { sess := { s with operationsInLookup := [] }
            chains := initialChains s.operationsInFlight
            opChains := []
            completedBatches := []
            completedOps := []
            delivered := [] } 0 s.operationsInLookup)
        s.operationsInLookup.length s.operations).delivered = [] := by
      rw [hcomp.2.2.2]; exact hdel1
    refine ⟨?_, Or.inr ⟨?_, ?_, ?_⟩⟩
    · intro hmem
      rw [hdelF] at hmem
      exact absurd hmem (by simp)
    · rw [hdelF]; simp
    · exact installBatchMembers_chainfree (i : Nat) s.operations _ _ i.2
        (fun c hc => hchfree c hc (i : Nat))
    · rw [hcomp.1]
      intro oc hoc hm
      obtain ⟨i', hi'⟩ := hopshape oc hoc
      subst hi'
      simp only [List.mem_singleton] at hm
      injection hm with hk
      have : i' = i := Fin.ext (by omega)
      rw [this]
  · -- the batch tokens
    intro j
    show BatchTokInv (s.operations.get j).1 (s.operations.get j).2
      (s.operationsInLookup.length + (j : Nat))
      (installBatchMembers
        (installOpMembers
          { sess := { s with operationsInLookup := [] }
            chains := initialChains s.operationsInFlight
            opChains := []
            completedBatches := []
            completedOps := []
            delivered := [] } 0 s.operationsInLookup)
        s.operationsInLookup.length s.operations)
    refine installBatchMembers_establish s.operations _ _ hkeys ?_ ?_ ?_ ?_ hdel1 j
    · intro c hc k _ hm
      exact hchfree c hc k hm
    · intro c hc p _ b' hm
      rw [hchq c hc] at hm
      simp at hm
    · intro oc hoc k hk hm
      obtain ⟨i', hi'⟩ := hopshape oc hoc
      subst hi'
      simp only [List.mem_singleton] at hm
      injection hm with hkeq
      have hlt := i'.isLt
      omega
    · intro oc hoc t' b' hm
      obtain ⟨i', hi'⟩ := hopshape oc hoc
      subst hi'
      simp at hm

/-- Claim C5: `flush()` snapshots and clears the pending-lookup list,
dispatching each snapshotted operation directly; it snapshots the
accumulating map without clearing it — `flushTablet` removes exactly the
entries it dispatches while blocked entries survive; the future it
returns is the group of one deferred per snapshotted lookup-pending
operation and one per snapshot batch; and, in the dispatcher dynamics
started from the post-flush world, a group member is delivered only after
its batch (resp. its operation) has reached its terminal state — so the
returned group completes only after every Batch and every lookup-pending
Operation present at the snapshot is terminal. -/
theorem c5_flush_contract (s : SessionState)
    (hkeys : (s.operations.map Prod.fst).Nodup) :
    (flush s).1.operationsInLookup = [] ∧
    (flush s).2.2.sent =
      s.operationsInLookup.map Rpc.opRpc ++
        (flushBatches { s with operationsInLookup := [] } s.operations).2.2.sent ∧
    (flush s).2.1 =
      Fut.group (s.operationsInLookup.map (fun op => Fut.opDeferred op.oid) ++
        (flushBatches { s with operationsInLookup := [] } s.operations).2.1) ∧
    (flushBatches { s with operationsInLookup := [] } s.operations).2.1.length =
      s.operations.length ∧
    (∀ t b, (t, b) ∈ s.operations →
      (∀ g, aget s.operationsInFlight t = some g →
        aget (flush s).1.operations t = some b ∧
        Fut.chainedFlushRetry g t b ∈
          (flushBatches { s with operationsInLookup := [] } s.operations).2.1) ∧
      (aget s.operationsInFlight t = none →
        aget (flush s).1.operations t = none ∧
        Fut.batchDeferred b.bid ∈
          (flushBatches { s with operationsInLookup := [] } s.operations).2.1 ∧
        ∃ b', b'.bid = b.bid ∧ Rpc.batchRpc b' ∈ (flush s).2.2.sent)) ∧
    (postFlushWorld s).sess = (flush s).1 ∧
    (∀ w', WSteps (postFlushWorld s) w' →
      (∀ i : Fin s.operationsInLookup.length,
        (i : Nat) ∈ w'.delivered →
          (s.operationsInLookup.get i).oid ∈ w'.completedOps) ∧
      (∀ j : Fin s.operations.length,
        (s.operationsInLookup.length + (j : Nat)) ∈ w'.delivered →
          (s.operations.get j).2.bid ∈ w'.completedBatches)) := by
  have hspec := flushBatches_spec s.operations { s with operationsInLookup := [] }
    hkeys hkeys
    (fun p hp => aget_of_mem_nodup s.operations p.1 p.2 hkeys hp)
  refine ⟨?_, rfl, rfl, flushBatches_len s.operations _, ?_, postFlushWorld_sess s, ?_⟩
  · show (flushBatches { s with operationsInLookup := [] } s.operations).1.operationsInLookup = []
    rw [flushBatches_lookup]
  · intro t b hmem
    have h := hspec t b hmem
    refine ⟨fun g hg => h.1 g hg, fun hg => ?_⟩
    obtain ⟨h1, h2, b', hb1, hb2⟩ := h.2 hg
    exact ⟨h1, h2, b', hb1, List.mem_append_right _ hb2⟩
  · intro w' hsteps
    have hinv := @wsteps_preserve
      (fun w => (∀ i : Fin s.operationsInLookup.length,
          OpTokInv (s.operationsInLookup.get i).oid (i : Nat) w) ∧
        (∀ j : Fin s.operations.length,
          BatchTokInv (s.operations.get j).1 (s.operations.get j).2
            (s.operationsInLookup.length + (j : Nat)) w))
      (fun a b hP hab =>
        ⟨fun i => opTokInv_step _ _ a b hab (hP.1 i),
         fun j => batchTokInv_step _ _ _ a b hab (hP.2 j)⟩)
      _ _ hsteps (postFlushWorld_establish s hkeys)
    exact ⟨fun i hdel => (hinv.1 i).1 hdel, fun j hdel => (hinv.2 j).1 hdel⟩

/-- Witness for C5 at a concrete session: one accumulating batch for
tablet 7 whose tablet already has a batch deferred in flight, and one
lookup-pending operation; the snapshot key list is duplicate-free, the
lookup list is cleared, the blocked entry survives with its chained retry
deferred in the group, and the lookup op's own deferred is in the group. -/
theorem c5_flush_contract_witness :
    (([((7 : Nat), ({ bid := 1, table := "T" } : Batch))].map Prod.fst).Nodup)
    ∧ (flush { operations := [(7, { bid := 1, table := "T" })]
               operationsInFlight := [(7, Fut.batchDeferred 9)]
               operationsInLookup :=
                 [{ oid := 5, table := "T", key := 3 }] }).1.operationsInLookup = []
    ∧ aget (flush { operations := [(7, { bid := 1, table := "T" })]
                    operationsInFlight := [(7, Fut.batchDeferred 9)]
                    operationsInLookup :=
                      [{ oid := 5, table := "T", key := 3 }] }).1.operations 7 =
        some { bid := 1, table := "T" }
    ∧ Fut.chainedFlushRetry (Fut.batchDeferred 9) 7 { bid := 1, table := "T" } ∈
        (flushBatches { operations := [(7, { bid := 1, table := "T" })]
                        operationsInFlight := [(7, Fut.batchDeferred 9)] }
          [(7, { bid := 1, table := "T" })]).2.1 := by
  have h := c5_flush_contract
    { operations := [(7, { bid := 1, table := "T" })]
      operationsInFlight := [(7, Fut.batchDeferred 9)]
      operationsInLookup := [{ oid := 5, table := "T", key := 3 }] } (by decide)
  have hb := (h.2.2.2.2.1 7 { bid := 1, table := "T" } (by decide)).1
    (Fut.batchDeferred 9) rfl
  exact ⟨by decide, h.1, hb.1, hb.2⟩

end KuduSess
